import Mathlib

/-!
Verification development for the jellyfin-ai-manager core: a shallow
embedding of the filesystem utilities (src/utils/fs_utils.py), the
reconciliation sweep (src/utils/scanner.py) and the watcher batching and
event-handling logic (src/core/watcher.py), together with theorems about
the embedded operations.

Modelling conventions:
* Absolute paths are lists of path components (`List String`); joining is
  list append and `os.path.normpath` / `os.path.abspath` normalisation is
  `normPath`, which resolves "." and ".." components.
* The filesystem is an association list from paths to entries; an entry is
  either a regular file or a symlink carrying its stored target (which may
  be relative, exactly as `os.symlink` stores it).  Directories are
  implicit (a path is a directory if entries live below it); `os.makedirs`
  is therefore a no-op in the model.
* `os.path.exists` follows symlinks; it is modelled with a fuel parameter
  playing the role of the kernel's ELOOP bound (a chain longer than the
  fuel, in particular a cycle, reports `false`, as Python does).
* Python strings are Lean `String`s and the `str` operations used by the
  code (`lower`, `startswith`, `endswith`, slicing, `rstrip`) are defined
  on the underlying character lists.
-/

namespace JAM

/-! ## String primitives (Python str operations used by the code) -/

/-- Python `s.lower()` (ASCII case folding, which is all the code relies on). -/
def strLower (s : String) : String := ⟨s.data.map Char.toLower⟩

/-- Python `s.endswith(suf)`. -/
def strEndsWithS (s suf : String) : Bool := decide (suf.data <:+ s.data)

/-- Python `s.startswith(pre)`. -/
def strStartsWithS (s pre : String) : Bool := decide (pre.data <+: s.data)

/-- Python `s[n:]`. -/
def strDropN (s : String) (n : Nat) : String := ⟨s.data.drop n⟩

/-- Core of `os.path.splitext` on a path-free name, following CPython's
`genericpath._splitext`: split at the last dot, unless every character
before that dot is itself a dot (leading dots do not start an extension). -/
def splitextList (cs : List Char) : List Char × List Char :=
  let extLen := (cs.reverse.takeWhile (fun c => decide (c ≠ '.'))).length
  if extLen = cs.length then (cs, [])
  else
    let i := cs.length - extLen - 1
    if (cs.take i).all (fun c => decide (c = '.')) then (cs, [])
    else (cs.take i, cs.drop i)

/-- `os.path.splitext` on a file name. -/
def splitext (s : String) : String × String :=
  (⟨(splitextList s.data).1⟩, ⟨(splitextList s.data).2⟩)

/-- The stem (`os.path.splitext(name)[0]`). -/
def stemOf (name : String) : String := (splitext name).1

/-- The extension (`os.path.splitext(name)[1]`). -/
def extOf (name : String) : String := (splitext name).2

/-! ## escape_filename (src/utils/fs_utils.py, lines 7-20) -/

/-- The characters `re.sub` replaces in `escape_filename`. -/
def badChars : List Char := ['<', '>', ':', '\"', '/', '\\', '|', '?', '*']

/-- Predicate for `rstrip('. ')`. -/
def isDotOrSpace (c : Char) : Bool := decide (c = '.') || decide (c = ' ')

/-- Embedding of `escape_filename`: replace every character in `badChars`
with an underscore, then strip trailing dots and spaces. -/
def escape_filename (s : String) : String :=
  if s.data = [] then "" else
    ⟨((s.data.map (fun c => if c ∈ badChars then '_' else c)).reverse.dropWhile
        isDotOrSpace).reverse⟩

/-! ## Path arithmetic (os.path.join / normpath / relpath) -/

/-- An absolute path, as its list of components below the filesystem root. -/
abbrev Path := List String

/-- `os.path.normpath` / `os.path.abspath` on an absolute path: drop "."
components and resolve ".." components (".." at the root stays at the root,
as in POSIX). -/
def normPath (cs : List String) : List String :=
  cs.foldl
    (fun acc c =>
      if c = "." then acc else if c = ".." then acc.dropLast else acc ++ [c]) []

/-- Length of the common component prefix of two paths (the component-wise
`commonprefix` used by `os.path.relpath`). -/
def commonPrefLen : List String → List String → Nat
  | a :: as, b :: bs => if a = b then commonPrefLen as bs + 1 else 0
  | _, _ => 0

/-- `os.path.relpath(src, start)` on normalised absolute paths: walk up out
of the uncommon part of `start`, then down into the uncommon part of `src`. -/
def relpathComps (src start : Path) : List String :=
  List.replicate (start.length - commonPrefLen src start) ".." ++
    src.drop (commonPrefLen src start)

/-! ## Filesystem model -/

/-- A filesystem entry: a regular file, or a symlink storing its target as
`os.symlink` wrote it (`isAbs` mirrors `os.path.isabs` of the stored text). -/
inductive FSEntry : Type
  | file : FSEntry
  | link : Bool → List String → FSEntry
  deriving DecidableEq, Repr

/-- The filesystem: an association list from absolute paths to entries.
Directories are implicit. -/
abbrev FS := List (Path × FSEntry)

/-- Entry at a path (`None` models ENOENT; `os.path.lexists` is `isSome`). -/
def lookupFS (fs : FS) (p : Path) : Option FSEntry :=
  (fs.find? (fun e => decide (e.1 = p))).map (·.2)

/-- `os.remove`: drop the entry at `p`. -/
def removeFS (fs : FS) (p : Path) : FS :=
  fs.filter (fun e => decide (e.1 ≠ p))

/-- `os.path.islink`. -/
def isLinkE : Option FSEntry → Bool
  | some (.link _ _) => true
  | _ => false

/-- Resolution of a stored link target against the link's directory:
`os.path.normpath(os.path.join(dir, target))` for a relative target and
`os.path.abspath(target)` for an absolute one (the resolution both
`get_processed_files` and `_find_dest_symlink` perform by hand). -/
def resolveTarget (dir : Path) (isAbs : Bool) (t : List String) : Path :=
  if isAbs then normPath t else normPath (dir ++ t)

/-- `os.path.exists`: `true` for a regular file, and for a symlink whose
target chain resolves to a regular file within `fuel` hops. -/
def existsFS (fs : FS) : Nat → Path → Bool
  | 0, _ => false
  | fuel + 1, p =>
    match lookupFS fs p with
    | some .file => true
    | some (.link a t) => existsFS fs fuel (resolveTarget p.dropLast a t)
    | none => false

/-- Basename of a path (last component; "" for the root). -/
def baseName (p : Path) : String := p.getLastD ""

/-- Whether `p` lies strictly inside the tree rooted at `root` (what a walk
of `root` visits). -/
def underRoot (root p : Path) : Bool := decide (root <+: p) && decide (p ≠ root)

/-- The entries a walk of `root` yields. -/
def filesUnder (fs : FS) (root : Path) : List (Path × FSEntry) :=
  fs.filter (fun e => underRoot root e.1)

/-- Path of the same-stem metadata sidecar
(`os.path.splitext(file_path)[0] + ".nfo"`). -/
def nfoSibling (p : Path) : Path :=
  p.dropLast ++ [stemOf (baseName p) ++ ".nfo"]

/-! ## Extension sets (shared by watcher.py, scanner.py, fs_utils.py) -/

def video_extensions : List String := [".mkv", ".mp4", ".avi", ".mov", ".m4v", ".m2ts"]

def audio_extensions : List String := [".mka", ".mp3", ".aac", ".ac3", ".dts", ".flac"]

def subtitle_extensions : List String := [".ass", ".srt", ".ssa", ".sub", ".vtt"]

def extra_extensions : List String := audio_extensions ++ subtitle_extensions

/-- Python `name.lower().endswith(tuple(exts))`. -/
def hasExtIn (name : String) (exts : List String) : Bool :=
  exts.any (fun e => strEndsWithS (strLower name) e)

/-! ## create_relative_symlink (src/utils/fs_utils.py, lines 22-36) -/

/-- Embedding of `create_relative_symlink(src, dst)`.  Returns the new
filesystem and the boolean result.  Mirrors the source: an existing
destination (in the `os.path.exists` sense, which follows links) is a
success no-op; `os.makedirs(..., exist_ok=True)` is a no-op on the implicit
directories; `os.symlink` raises `FileExistsError` when any entry (even a
broken link) already occupies `dst`, which the `except` turns into `False`;
otherwise the link is written with target `os.path.relpath(src, dirname dst)`. -/
def create_relative_symlink (fuel : Nat) (fs : FS) (src dst : Path) : FS × Bool :=
  if existsFS fs fuel dst then (fs, true)
  else if (lookupFS fs dst).isSome then (fs, false)
  else (fs ++ [(dst, .link false (relpathComps src dst.dropLast))], true)

/-! ## Failure journal (src/utils/fs_utils.py, lines 38-72; scanner.py 92-113)

A journal is the list of stripped, non-blank lines of a root's `.failed`
file; each line is an inbox-relative path, kept in component form. -/

/-- Embedding of `mark_as_failed(file_path, base_dest_path, mixed_path)`
acting on the journal of `base_dest_path`: append
`os.path.relpath(file_path, mixed_path)` unless already present. -/
def mark_as_failed (journal : List (List String)) (filePath mixedPath : Path) :
    List (List String) :=
  if relpathComps filePath mixedPath ∈ journal then journal
  else journal ++ [relpathComps filePath mixedPath]

/-- Embedding of `get_failed_files(movies_path, series_path, mixed_path)`:
for every journal line of either root, `os.path.abspath(os.path.join(mixed_path, rel))`. -/
def get_failed_files (moviesJournal seriesJournal : List (List String))
    (mixedPath : Path) : List Path :=
  (moviesJournal ++ seriesJournal).map (fun rel => normPath (mixedPath ++ rel))

/-- Embedding of the `.failed` compaction step of `cleanup_broken_links`
(scanner.py lines 92-113): keep exactly the lines whose
`os.path.join(mixed_path, rel)` still exists. -/
def compactFailedLines (fuel : Nat) (fs : FS) (mixedPath : Path)
    (journal : List (List String)) : List (List String) :=
  journal.filter (fun rel => existsFS fs fuel (mixedPath ++ rel))

/-! ## get_processed_files (src/utils/fs_utils.py, lines 74-106) -/

/-- One destination root's contribution to `get_processed_files`: every
video-extension file that has a same-stem `.nfo` beside it, is a symlink,
and whose resolved target exists, contributes that resolved absolute target. -/
def gpfRoot (fuel : Nat) (fs : FS) (root : Path) : List Path :=
  if root = [] then [] else
    (filesUnder fs root).filterMap (fun pe =>
      if hasExtIn (baseName pe.1) video_extensions then
        if existsFS fs fuel (nfoSibling pe.1) then
          match pe.2 with
          | .file => none
          | .link a t =>
            if existsFS fs fuel (resolveTarget pe.1.dropLast a t) then
              some (resolveTarget pe.1.dropLast a t)
            else none
        else none
      else none)

/-- Embedding of `get_processed_files(movies_path, series_path)` (the
resulting Python set, as a list with possible repetitions; membership is
what matters). -/
def get_processed_files (fuel : Nat) (fs : FS) (moviesPath seriesPath : Path) :
    List Path :=
  gpfRoot fuel fs moviesPath ++ gpfRoot fuel fs seriesPath

/-! ## link_external_media (src/utils/fs_utils.py, lines 196-259) -/

/-- The result shape of `find_external_audio_and_subtitles`: discovered
(sourcePath, originalFilename) candidate pairs. -/
structure ExternalFiles : Type where
  audio : List (Path × String)
  subtitles : List (Path × String)

/-- The destination file name `link_external_media` computes for one
candidate: destination video stem, plus the candidate stem's suffix beyond
the source video stem (empty if the candidate stem does not start with it),
plus the candidate's extension. -/
def sidecarDestName (videoSrcStem videoDestStem origName : String) : String :=
  let stemO := stemOf origName
  let suffix :=
    if strStartsWithS stemO videoSrcStem then strDropN stemO videoSrcStem.length
    else ""
  videoDestStem ++ suffix ++ extOf origName

/-- Embedding of `link_external_media(video_src_path, video_dest_path,
external_files)`: link every audio candidate, then every subtitle
candidate, next to the destination video under its renamed stem; returns
the filesystem and the count of successful links. -/
def link_external_media (fuel : Nat) (fs : FS) (videoSrcPath videoDestPath : Path)
    (externalFiles : ExternalFiles) : FS × Nat :=
  let destDir := videoDestPath.dropLast
  let vSrcStem := stemOf (baseName videoSrcPath)
  let vDestStem := stemOf (baseName videoDestPath)
  let step := fun (acc : FS × Nat) (c : Path × String) =>
    let destPath := destDir ++ [sidecarDestName vSrcStem vDestStem c.2]
    let r := create_relative_symlink fuel acc.1 c.1 destPath
    (r.1, acc.2 + (if r.2 then 1 else 0))
  externalFiles.subtitles.foldl step (externalFiles.audio.foldl step (fs, 0))

/-! ## cleanup_broken_links (src/utils/scanner.py, lines 6-115)

The journal compaction part is `compactFailedLines` above; the removal of
directories left empty is not represented (directories are implicit in the
model).  The walk order is the association-list order of the filesystem. -/

/-- Pass 1: stems of every video-extension file under `root` that
`os.path.exists` accepts (healthy symlinks and regular files). -/
def collectVideoStems (fuel : Nat) (fs : FS) (root : Path) : List String :=
  (filesUnder fs root).filterMap (fun pe =>
    if hasExtIn (baseName pe.1) video_extensions && existsFS fs fuel pe.1 then
      some (stemOf (baseName pe.1))
    else none)

/-- The orphan test for an audio/subtitle file: its stem equals, or starts
with, some collected video stem. -/
def stemMatches (stems : List String) (name : String) : Bool :=
  stems.any (fun v => decide (stemOf name = v) || strStartsWithS (stemOf name) v)

/-- Pass 2 of `cleanup_broken_links`, for one walked file: remove it if it
is a broken symlink (removing the same-stem `.nfo` as well when it bears a
video extension), else if it is an orphaned audio/subtitle file, else if it
is an orphaned `.nfo`. -/
def sweepStep (fuel : Nat) (stems : List String) (cur : FS) (p : Path) : FS :=
  match lookupFS cur p with
  | none => cur
  | some e =>
    let name := baseName p
    if isLinkE (some e) && !existsFS cur fuel p then
      let cur' := removeFS cur p
      if hasExtIn name video_extensions && existsFS cur' fuel (nfoSibling p) then
        removeFS cur' (nfoSibling p)
      else cur'
    else if hasExtIn name extra_extensions then
      if stemMatches stems name then cur else removeFS cur p
    else if strEndsWithS (strLower name) ".nfo" then
      if stemOf name ∈ stems then cur else removeFS cur p
    else cur

/-- The sweep of one destination root: collect resolvable video stems, then
walk every file under the root applying `sweepStep`. -/
def sweepRoot (fuel : Nat) (fs : FS) (root : Path) : FS :=
  if root = [] then fs else
    let stems := collectVideoStems fuel fs root
    (filesUnder fs root).foldl (fun cur pe => sweepStep fuel stems cur pe.1) fs

/-- Embedding of the link-removal part of
`cleanup_broken_links(movies_path, series_path, mixed_path)`: sweep the
movies root, then the series root. -/
def cleanup_broken_links (fuel : Nat) (fs : FS) (moviesPath seriesPath : Path) : FS :=
  sweepRoot fuel (sweepRoot fuel fs moviesPath) seriesPath

/-- Modelled from the spec (for comparison with the code): the spec's §4.4
"same directory" validity test for a sidecar — some currently-resolvable
video-extension file in the sidecar's own directory whose stem the
sidecar's stem equals or extends.  The code has no such function; its
orphan test is `stemMatches` against the stems of the whole root. -/
def specSameDirMatch (fuel : Nat) (fs : FS) (p : Path) : Bool :=
  fs.any (fun qe =>
    decide (qe.1.dropLast = p.dropLast) &&
    hasExtIn (baseName qe.1) video_extensions &&
    existsFS fs fuel qe.1 &&
    (decide (stemOf (baseName p) = stemOf (baseName qe.1)) ||
      strStartsWithS (stemOf (baseName p)) (stemOf (baseName qe.1))))

/-! ## MediaWatcherHandler._process_batch (src/core/watcher.py, lines 221-260)

The classifier (`self.llm.extract_media_info_batch`), the per-item
processors (`self.processor.process_movie` / `process_series`) and the
`os.path.exists` re-validation of source files are collaborators of this
function; they are parameters of the embedding.  The mutable state visible
to the claim is the abstract media state `α` (everything the processors
create: destination links, metadata sidecars, sidecar links) together with
the movies root's failure journal, which is the journal `_process_batch`
itself writes through `mark_as_failed(fp, self.config.movies_dest_path, ...)`.
The Jellyfin refresh calls are external fire-and-forget notifications and
mutate neither component. -/

/-- The discriminant of a classifier result (`media_info.get('type')`). -/
inductive MediaType : Type
  | movie : MediaType
  | series : MediaType
  | other : MediaType
  deriving DecidableEq, Repr

/-- One classifier result; only its `type` field steers `_process_batch`. -/
structure MediaInfo : Type where
  mtype : MediaType
  deriving DecidableEq, Repr

/-- Embedding of `_process_batch(folder_path, file_paths)`. -/
def process_batch {α : Type}
    (sourceExists : Path → Bool)
    (classify : List String → List String → Option (List MediaInfo))
    (procMovie procSeries : Path → MediaInfo → α → α × Bool)
    (mixedPath : Path) (folderPath : Path) (filePaths : List Path)
    (st : α × List (List String)) : α × List (List String) :=
  let validFiles := filePaths.filter sourceExists
  if validFiles.isEmpty then st
  else
    let filenames := validFiles.map baseName
    let relFolder := relpathComps folderPath mixedPath
    let failAll := fun (j : List (List String)) =>
      validFiles.foldl (fun acc fp => mark_as_failed acc fp mixedPath) j
    match classify filenames relFolder with
    | none => (st.1, failAll st.2)
    | some batchInfo =>
      if batchInfo.length ≠ validFiles.length then (st.1, failAll st.2)
      else
        ((validFiles.zip batchInfo).foldl
          (fun a fi =>
            match fi.2.mtype with
            | .movie => (procMovie fi.1 fi.2 a).1
            | .series => (procSeries fi.1 fi.2 a).1
            | .other => a) st.1,
         st.2)

/-! ## Batch debouncer (src/core/watcher.py, lines 69-94)

`_queue_for_batching` and `_trigger_batch` both run under `batch_lock`;
the model's steps are those two critical sections.  A `threading.Timer` is
a timer identifier: arming is recording `(id, folder)` in `armed`,
`Timer.cancel()` records the id in `cancelled`, and a timer that goes off
executes a `fire` step, recorded in `fired`.  A fire step is admissible
only for an armed, uncancelled, not-yet-fired timer: cancellation is
modelled as always effective. -/

/-- A pending batch: accumulated distinct files and the current timer, if
any (`{'files': set(), 'timer': None}` right after creation). -/
structure PendingBatch : Type where
  files : List Path
  timer : Option Nat
  deriving DecidableEq, Repr

/-- Debouncer state plus the instrumentation needed to speak about timers
and deliveries. -/
structure Debouncer : Type where
  pending : List (Path × PendingBatch)
  armed : List (Nat × Path)
  cancelled : List Nat
  fired : List Nat
  nextId : Nat
  delivered : List (Path × List Path)
  deriving DecidableEq, Repr

def initDebouncer : Debouncer :=
  { pending := [], armed := [], cancelled := [], fired := [], nextId := 0,
    delivered := [] }

/-- Lookup of a folder's pending batch. -/
def lookupPending (d : List (Path × PendingBatch)) (folder : Path) :
    Option PendingBatch :=
  (d.find? (fun e => decide (e.1 = folder))).map (·.2)

/-- Store a folder's pending batch (replacing any previous binding). -/
def setPending (d : List (Path × PendingBatch)) (folder : Path)
    (b : PendingBatch) : List (Path × PendingBatch) :=
  (folder, b) :: d.filter (fun e => decide (e.1 ≠ folder))

/-- Remove a folder's binding (`self.pending_batches.pop(folder_path)`). -/
def popPending (d : List (Path × PendingBatch)) (folder : Path) :
    List (Path × PendingBatch) :=
  d.filter (fun e => decide (e.1 ≠ folder))

/-- Python `set.add` on the model's dedup list. -/
def addFile (files : List Path) (f : Path) : List Path :=
  if f ∈ files then files else files ++ [f]

/-- Embedding of `_queue_for_batching(file_path)`: ensure the folder has an
entry, add the file, cancel the existing timer if any, then arm a fresh one. -/
def queueFile (d : Debouncer) (filePath : Path) : Debouncer :=
  let folder := filePath.dropLast
  let batch := (lookupPending d.pending folder).getD ⟨[], none⟩
  let files' := addFile batch.files filePath
  let cancelled' := match batch.timer with
    | some tid => tid :: d.cancelled
    | none => d.cancelled
  { pending := setPending d.pending folder ⟨files', some d.nextId⟩,
    armed := (d.nextId, folder) :: d.armed,
    cancelled := cancelled',
    fired := d.fired,
    nextId := d.nextId + 1,
    delivered := d.delivered }

/-- Embedding of `_trigger_batch(folder_path)` (the body of a timer that
went off): if the folder still has an entry, pop it and, if its file set is
non-empty, emit the batch event. -/
def triggerBatch (d : Debouncer) (tid : Nat) (folder : Path) : Debouncer :=
  let d' := { d with fired := tid :: d.fired }
  match lookupPending d.pending folder with
  | none => d'
  | some batch =>
    { d' with
      pending := popPending d.pending folder,
      delivered :=
        if batch.files.isEmpty then d.delivered
        else d.delivered ++ [(folder, batch.files)] }

/-- The observable operations on the debouncer. -/
inductive DOp : Type
  | queue : Path → DOp
  | fire : Nat → Path → DOp
  deriving DecidableEq, Repr

/-- Whether an operation can occur in state `d`: insertions always can; a
timer goes off only if armed for that folder, not cancelled, not fired. -/
def validOp (d : Debouncer) : DOp → Bool
  | .queue _ => true
  | .fire tid folder =>
    decide ((tid, folder) ∈ d.armed) && decide (tid ∉ d.cancelled) &&
      decide (tid ∉ d.fired)

def stepD (d : Debouncer) : DOp → Debouncer
  | .queue fp => queueFile d fp
  | .fire tid folder => triggerBatch d tid folder

def runD (d : Debouncer) : List DOp → Debouncer
  | [] => d
  | op :: ops => runD (stepD d op) ops

/-- A trace of operations each admissible in the state it encounters. -/
def validTrace (d : Debouncer) : List DOp → Bool
  | [] => true
  | op :: ops => validOp d op && validTrace (stepD d op) ops

/-- A timer currently able to deliver folder `f`: armed for `f`, not
cancelled, not yet fired. -/
def liveTimer (d : Debouncer) (tid : Nat) (f : Path) : Prop :=
  (tid, f) ∈ d.armed ∧ tid ∉ d.cancelled ∧ tid ∉ d.fired

/-- Number of batches delivered for folder `f`. -/
def deliveredCount (d : Debouncer) (f : Path) : Nat :=
  (d.delivered.filter (fun e => decide (e.1 = f))).length

/-- 1 if folder `f` currently has a pending entry. -/
def pendingFlag (d : Debouncer) (f : Path) : Nat :=
  if (lookupPending d.pending f).isSome then 1 else 0

/-- Number of insertions for folder `f` in a trace. -/
def queueCount (ops : List DOp) (f : Path) : Nat :=
  ops.countP (fun op => match op with
    | .queue fp => decide (fp.dropLast = f)
    | .fire _ _ => false)

/-- The substitution applied to each character by `escape_filename`. -/
def escChar (c : Char) : Char := if c ∈ badChars then '_' else c

/-- The right-strip on character lists used by `escape_filename`. -/
def rstripL (l : List Char) : List Char :=
  (l.reverse.dropWhile isDotOrSpace).reverse

/-- A path with no "." or ".." components (every real absolute file path). -/
def CleanPath (p : List String) : Prop := ∀ c ∈ p, c ≠ "." ∧ c ≠ ".."

instance (p : List String) : Decidable (CleanPath p) := by
  unfold CleanPath
  infer_instance

/-- The inductive invariant of the debouncer: every live timer for a folder
is exactly the timer its pending entry records, and armed timer ids are
below the id counter. -/
def DebInv (d : Debouncer) : Prop :=
  (∀ (f : Path) (t : Nat), liveTimer d t f →
    ∃ fl, lookupPending d.pending f = some ⟨fl, some t⟩) ∧
  (∀ tf ∈ d.armed, tf.1 < d.nextId)

/-- `fs'` is `fs` with some entries removed: every lookup either fails or
agrees with `fs`. -/
def SubOf (fs' fs : FS) : Prop :=
  ∀ x, lookupFS fs' x = none ∨ lookupFS fs' x = lookupFS fs x

/-! ## Concrete example trees used by counterexamples and witnesses -/

/-- A destination tree for C2's counterexample: one audio symlink under the
movies root whose target (a regular file in the source area) exists, and no
video anywhere. -/
def exC2fs : FS :=
  [(["m", "a.mka"], .link false ["..", "src", "a.mka"]),
   (["src", "a.mka"], .file)]

/-- A tree for C2's witness: a healthy video link (target in the source
area), a broken video link, and the broken link's metadata sidecar. -/
def exC2wfs : FS :=
  [(["m", "sh", "good.mkv"], .link false ["..", "..", "ext", "good.mkv"]),
   (["ext", "good.mkv"], .file),
   (["m", "sh", "bad.mkv"], .link false ["..", "..", "ext", "bad.mkv"]),
   (["m", "sh", "bad.nfo"], .file)]

/-- A tree for C3's counterexample: a resolvable video in directory
m/showA and an audio file with a matching stem in the different directory
m/showB. -/
def exC3fs : FS :=
  [(["m", "showA", "v.mkv"], .file),
   (["m", "showB", "v.ru.mka"], .file)]

/-- A tree for C3's witness: a resolvable video, a matching plain audio
file, a matching healthy subtitle link, an orphaned audio file, and a
broken subtitle link. -/
def exC3wfs : FS :=
  [(["m", "sh", "v.mkv"], .file),
   (["m", "sh", "v.ru.mka"], .file),
   (["m", "sh", "v.en.ass"], .link false ["..", "..", "ext", "v.en.ass"]),
   (["ext", "v.en.ass"], .file),
   (["m", "sh", "orphan.mka"], .file),
   (["m", "sh", "v.ass"], .link false ["..", "..", "gone", "v.ass"])]

/-! ## Theorems -/

/-! ### Generic list lemmas -/

theorem dropWhile_dropWhile_self {α : Type} (p : α → Bool) (l : List α) :
    (l.dropWhile p).dropWhile p = l.dropWhile p := by
  induction l with
  | nil => rfl
  | cons a l ih =>
    by_cases h : p a
    · simp [List.dropWhile, h, ih]
    · simp [List.dropWhile, h]

theorem mem_of_mem_dropWhile {α : Type} {p : α → Bool} {l : List α} {a : α}
    (h : a ∈ l.dropWhile p) : a ∈ l := by
  induction l with
  | nil => simp at h
  | cons b l ih =>
    by_cases hb : p b
    · simp only [List.dropWhile, hb] at h
      exact List.mem_cons_of_mem _ (ih h)
    · simpa [List.dropWhile, hb] using h

theorem head?_dropWhile_false {α : Type} {p : α → Bool} {l : List α} {a : α}
    (h : (l.dropWhile p).head? = some a) : p a = false := by
  induction l with
  | nil => simp at h
  | cons b l ih =>
    by_cases hb : p b
    · simp only [List.dropWhile, hb] at h
      exact ih h
    · simp only [List.dropWhile, hb] at h
      simp only [List.head?] at h
      cases h
      simpa using hb

/-! ### escape_filename lemmas and claim C10 -/

theorem escChar_not_bad (c : Char) : escChar c ∉ badChars := by
  unfold escChar
  by_cases h : c ∈ badChars
  · rw [if_pos h]; decide
  · rw [if_neg h]; exact h

theorem escChar_escChar (c : Char) : escChar (escChar c) = escChar c := by
  have h := escChar_not_bad c
  unfold escChar at *
  by_cases hc : c ∈ badChars <;> simp_all

theorem escape_filename_eq (s : String) :
    escape_filename s = ⟨rstripL (s.data.map escChar)⟩ := by
  unfold escape_filename rstripL escChar
  by_cases h : s.data = [] <;> simp [h]

theorem mem_rstripL {l : List Char} {c : Char} (h : c ∈ rstripL l) : c ∈ l := by
  unfold rstripL at h
  rw [List.mem_reverse] at h
  have := mem_of_mem_dropWhile h
  rwa [List.mem_reverse] at this

theorem rstripL_rstripL (l : List Char) : rstripL (rstripL l) = rstripL l := by
  unfold rstripL
  rw [List.reverse_reverse, dropWhile_dropWhile_self]

theorem map_escChar_rstripL_map (l : List Char) :
    (rstripL (l.map escChar)).map escChar = rstripL (l.map escChar) := by
  have h : ∀ c ∈ rstripL (l.map escChar), escChar c = id c := by
    intro c hc
    obtain ⟨c', _, rfl⟩ := List.mem_map.mp (mem_rstripL hc)
    exact escChar_escChar c'
  rw [List.map_congr_left h, List.map_id]

/-- Claim C10: filename sanitization is idempotent; every output is free of
the nine forbidden characters; no output ends in a dot or a space; and a
non-empty input of only dots and spaces (such as "...") sanitizes to the
empty string. -/
theorem claim_C10_sanitize_idempotent_clean :
    (∀ s : String, escape_filename (escape_filename s) = escape_filename s) ∧
    (∀ (s : String) (c : Char), c ∈ (escape_filename s).data → c ∉ badChars) ∧
    (∀ (s : String) (c : Char),
      (escape_filename s).data.getLast? = some c → c ≠ '.' ∧ c ≠ ' ') ∧
    escape_filename "..." = "" := by
  have hdata : ∀ s : String,
      (escape_filename s).data = rstripL (s.data.map escChar) := by
    intro s
    rw [escape_filename_eq]
  refine ⟨?_, ?_, ?_, by decide⟩
  · intro s
    have h2 : (escape_filename s).data.map escChar = (escape_filename s).data := by
      rw [hdata]
      exact map_escChar_rstripL_map s.data
    apply String.ext
    rw [hdata (escape_filename s), h2, hdata, rstripL_rstripL]
  · intro s c hc
    rw [hdata] at hc
    obtain ⟨c', _, rfl⟩ := List.mem_map.mp (mem_rstripL hc)
    exact escChar_not_bad c'
  · intro s c hc
    rw [hdata] at hc
    unfold rstripL at hc
    rw [List.getLast?_reverse] at hc
    have h := head?_dropWhile_false hc
    unfold isDotOrSpace at h
    simp only [Bool.or_eq_false_iff, decide_eq_false_iff_not] at h
    exact h

/-- Witness for C10 at concrete inputs. -/
theorem claim_C10_witness :
    escape_filename (escape_filename "a<b. ") = escape_filename "a<b. " ∧
    'a' ∉ badChars ∧
    ('b' ≠ '.' ∧ 'b' ≠ ' ') ∧
    escape_filename "..." = "" :=
  ⟨claim_C10_sanitize_idempotent_clean.1 "a<b. ",
   claim_C10_sanitize_idempotent_clean.2.1 "a<b. " 'a' (by decide),
   claim_C10_sanitize_idempotent_clean.2.2.1 "a<b. " 'b' (by decide),
   claim_C10_sanitize_idempotent_clean.2.2.2⟩

/-! ### Claim C4: sidecar suffix propagation -/

/-- Claim C4: for a sidecar candidate (srcPath, origName) handed to
`link_external_media` with source video stem V and destination video path D,
the relative link is created in dir(D) under the name
stem(D) + suffix + ext(origName), where suffix is stem(origName) minus the
prefix V when stem(origName) starts with V, and empty otherwise; in
particular source stem "[G] Show - 01", destination stem "Show - S01E01"
and candidate "[G] Show - 01.Lang.ass" produce "Show - S01E01.Lang.ass". -/
theorem claim_C4_sidecar_suffix_propagation :
    (∀ (videoSrcStem videoDestStem origName : String),
      sidecarDestName videoSrcStem videoDestStem origName =
        if strStartsWithS (stemOf origName) videoSrcStem then
          videoDestStem ++ strDropN (stemOf origName) videoSrcStem.length ++
            extOf origName
        else videoDestStem ++ extOf origName) ∧
    (∀ (fuel : Nat) (fs : FS) (videoSrcPath videoDestPath srcPath : Path)
        (origName : String),
      link_external_media fuel fs videoSrcPath videoDestPath
          ⟨[], [(srcPath, origName)]⟩ =
        ((create_relative_symlink fuel fs srcPath
            (videoDestPath.dropLast ++
              [sidecarDestName (stemOf (baseName videoSrcPath))
                (stemOf (baseName videoDestPath)) origName])).1,
         if (create_relative_symlink fuel fs srcPath
            (videoDestPath.dropLast ++
              [sidecarDestName (stemOf (baseName videoSrcPath))
                (stemOf (baseName videoDestPath)) origName])).2 then 1 else 0) ∧
      link_external_media fuel fs videoSrcPath videoDestPath
          ⟨[(srcPath, origName)], []⟩ =
        ((create_relative_symlink fuel fs srcPath
            (videoDestPath.dropLast ++
              [sidecarDestName (stemOf (baseName videoSrcPath))
                (stemOf (baseName videoDestPath)) origName])).1,
         if (create_relative_symlink fuel fs srcPath
            (videoDestPath.dropLast ++
              [sidecarDestName (stemOf (baseName videoSrcPath))
                (stemOf (baseName videoDestPath)) origName])).2 then 1 else 0)) ∧
    sidecarDestName "[G] Show - 01" "Show - S01E01" "[G] Show - 01.Lang.ass" =
      "Show - S01E01.Lang.ass" := by
  refine ⟨?_, ?_, by decide⟩
  · intro vs vd o
    unfold sidecarDestName
    by_cases h : strStartsWithS (stemOf o) vs = true
    · simp [h]
    · rw [Bool.not_eq_true] at h
      simp [h]
  · intro fuel fs vsp vdp sp o
    constructor
    · simp [link_external_media]
    · simp [link_external_media]

/-! ### Path arithmetic lemmas -/

theorem normPath_foldl_clean (cs : List String) (acc : List String)
    (h : CleanPath cs) :
    cs.foldl
        (fun acc c =>
          if c = "." then acc else if c = ".." then acc.dropLast else acc ++ [c])
        acc = acc ++ cs := by
  induction cs generalizing acc with
  | nil => simp
  | cons c cs ih =>
    obtain ⟨h1, h2⟩ := h c (List.mem_cons_self c cs)
    simp only [List.foldl_cons, if_neg h1, if_neg h2]
    rw [ih _ (fun x hx => h x (List.mem_cons_of_mem c hx))]
    simp

theorem normPath_clean (cs : List String) (h : CleanPath cs) : normPath cs = cs := by
  unfold normPath
  rw [normPath_foldl_clean cs [] h]
  simp

theorem normPath_foldl_dotdot (m : Nat) (acc : List String) :
    (List.replicate m "..").foldl
        (fun acc c =>
          if c = "." then acc else if c = ".." then acc.dropLast else acc ++ [c])
        acc = acc.take (acc.length - m) := by
  induction m generalizing acc with
  | zero => simp
  | succ m ih =>
    rw [List.replicate_succ, List.foldl_cons]
    have hstep :
        (if (".." : String) = "." then acc
         else if (".." : String) = ".." then acc.dropLast else acc ++ [".."]) =
          acc.dropLast := by
      rw [if_neg (by decide), if_pos rfl]
    rw [hstep, ih acc.dropLast, List.dropLast_eq_take, List.take_take,
      List.length_take]
    congr 1
    omega

theorem commonPrefLen_le_left (src start : List String) :
    commonPrefLen src start ≤ src.length := by
  induction src generalizing start with
  | nil => cases start <;> simp [commonPrefLen]
  | cons a as ih =>
    cases start with
    | nil => simp [commonPrefLen]
    | cons b bs =>
      unfold commonPrefLen
      by_cases h : a = b
      · simp only [if_pos h, List.length_cons]
        exact Nat.succ_le_succ (ih bs)
      · simp [if_neg h]

theorem commonPrefLen_le_right (src start : List String) :
    commonPrefLen src start ≤ start.length := by
  induction src generalizing start with
  | nil => cases start <;> simp [commonPrefLen]
  | cons a as ih =>
    cases start with
    | nil => simp [commonPrefLen]
    | cons b bs =>
      unfold commonPrefLen
      by_cases h : a = b
      · simp only [if_pos h, List.length_cons]
        exact Nat.succ_le_succ (ih bs)
      · simp [if_neg h]

theorem commonPrefLen_take (src start : List String) :
    src.take (commonPrefLen src start) = start.take (commonPrefLen src start) := by
  induction src generalizing start with
  | nil => cases start <;> simp [commonPrefLen]
  | cons a as ih =>
    cases start with
    | nil => simp [commonPrefLen]
    | cons b bs =>
      unfold commonPrefLen
      by_cases h : a = b
      · subst h
        rw [if_pos rfl, List.take_succ_cons, List.take_succ_cons, ih bs]
      · simp [if_neg h]

theorem commonPrefLen_of_isPrefix {start src : List String} (h : start <+: src) :
    commonPrefLen src start = start.length := by
  induction start generalizing src with
  | nil => cases src <;> simp [commonPrefLen]
  | cons b bs ih =>
    obtain ⟨t, rfl⟩ := h
    show commonPrefLen (b :: (bs ++ t)) (b :: bs) = (b :: bs).length
    unfold commonPrefLen
    rw [if_pos rfl, ih ⟨t, rfl⟩]
    simp

/-- The relative-link round trip: resolving `os.path.relpath(src, start)`
against `start` yields `src` again, on clean paths. -/
theorem resolve_relpathComps (src start : List String)
    (hsrc : CleanPath src) (hstart : CleanPath start) :
    normPath (start ++ relpathComps src start) = src := by
  unfold normPath relpathComps
  rw [← List.append_assoc, List.foldl_append, List.foldl_append]
  rw [normPath_foldl_clean start [] hstart]
  simp only [List.nil_append]
  rw [normPath_foldl_dotdot]
  have h1 := commonPrefLen_le_right src start
  have h2 : start.length - (start.length - commonPrefLen src start) =
      commonPrefLen src start := by omega
  rw [h2, ← commonPrefLen_take src start]
  rw [normPath_foldl_clean _ _ (fun c hc => hsrc c (List.mem_of_mem_drop hc))]
  exact List.take_append_drop _ src

theorem relpathComps_of_isPrefix {mixed p : List String} (h : mixed <+: p) :
    relpathComps p mixed = p.drop mixed.length := by
  unfold relpathComps
  rw [commonPrefLen_of_isPrefix h]
  simp

/-! ### Lookup lemmas for the filesystem model -/

theorem lookupFS_append_right {fs : FS} {dst : Path} (e : FSEntry)
    (h : lookupFS fs dst = none) :
    lookupFS (fs ++ [(dst, e)]) dst = some e := by
  unfold lookupFS at *
  rw [List.find?_append]
  cases hfind : fs.find? (fun x => decide (x.1 = dst)) with
  | some v => rw [hfind] at h; simp at h
  | none =>
    rw [Option.none_or, List.find?_cons_of_pos _ (by simp)]
    rfl

theorem lookupFS_append_other {fs : FS} {dst x : Path} (e : FSEntry)
    (h : x ≠ dst) :
    lookupFS (fs ++ [(dst, e)]) x = lookupFS fs x := by
  unfold lookupFS
  rw [List.find?_append]
  cases hfind : fs.find? (fun y => decide (y.1 = x)) with
  | none =>
    rw [Option.none_or, List.find?_cons_of_neg _ (by simp [Ne.symm h])]
    rfl
  | some v => rfl

/-! ### Claim C5: idempotence of create_relative_symlink -/

theorem existsFS_succ (fs : FS) (fuel : Nat) (p : Path) :
    existsFS fs (fuel + 1) p =
      match lookupFS fs p with
      | some .file => true
      | some (.link a t) => existsFS fs fuel (resolveTarget p.dropLast a t)
      | none => false := rfl

theorem existsFS_succ_file {fs : FS} {p : Path}
    (h : lookupFS fs p = some .file) (fuel : Nat) :
    existsFS fs (fuel + 1) p = true := by
  rw [existsFS_succ, h]

theorem existsFS_succ_link {fs : FS} {p : Path} {a : Bool} {t : List String}
    (h : lookupFS fs p = some (.link a t)) (fuel : Nat) :
    existsFS fs (fuel + 1) p = existsFS fs fuel (resolveTarget p.dropLast a t) := by
  rw [existsFS_succ, h]

theorem existsFS_of_lookup_none {fs : FS} {p : Path}
    (h : lookupFS fs p = none) : ∀ fuel, existsFS fs fuel p = false := by
  intro fuel
  cases fuel with
  | zero => rfl
  | succ n => simp [existsFS, h]

theorem crs_noop_of_exists (fuel : Nat) (fs : FS) (src dst : Path)
    (h : existsFS fs fuel dst = true) :
    create_relative_symlink fuel fs src dst = (fs, true) := by
  unfold create_relative_symlink
  rw [if_pos h]

/-- Claim C5 counterexample: on an empty filesystem (so the source "s" does
not exist), linking "s" to "d/x" succeeds and writes a broken link, but the
second, identical call reports failure — the claim's "second call
succeeding" is violated. -/
theorem claim_C5_counterexample :
    (create_relative_symlink 40 [] ["s"] ["d", "x"]).2 = true ∧
    (create_relative_symlink 40
        (create_relative_symlink 40 [] ["s"] ["d", "x"]).1 ["s"] ["d", "x"]).2 =
      false := by
  decide

/-- Claim C5 (amended): if the destination already exists the call is a
success no-op that never overwrites; running the operation twice always
yields the same tree state as running it once; and the second call succeeds
provided the source file exists and the destination was initially
unoccupied (when the source is missing the second call reports failure,
though the state is still unchanged — see the counterexample). -/
theorem claim_C5_amended_idempotent :
    (∀ (fuel : Nat) (fs : FS) (src dst : Path),
      existsFS fs fuel dst = true →
      create_relative_symlink fuel fs src dst = (fs, true)) ∧
    (∀ (fuel : Nat) (fs : FS) (src dst : Path),
      (create_relative_symlink fuel
          (create_relative_symlink fuel fs src dst).1 src dst).1 =
        (create_relative_symlink fuel fs src dst).1) ∧
    (∀ (fuel : Nat) (fs : FS) (src dst : Path),
      2 ≤ fuel → lookupFS fs src = some .file → lookupFS fs dst = none →
      CleanPath src → CleanPath dst.dropLast →
      (create_relative_symlink fuel
          (create_relative_symlink fuel fs src dst).1 src dst).2 = true) := by
  refine ⟨crs_noop_of_exists, ?_, ?_⟩
  · intro fuel fs src dst
    by_cases h1 : existsFS fs fuel dst = true
    · rw [crs_noop_of_exists _ _ _ _ h1, crs_noop_of_exists _ _ _ _ h1]
    · rw [Bool.not_eq_true] at h1
      by_cases h2 : (lookupFS fs dst).isSome
      · simp [create_relative_symlink, h1, h2]
      · simp only [Bool.not_eq_true] at h2
        have hdst : lookupFS fs dst = none := by
          rwa [← Option.not_isSome_iff_eq_none, Bool.not_eq_true]
        simp only [create_relative_symlink, h1, h2]
        norm_num
        by_cases h3 :
            existsFS (fs ++ [(dst, FSEntry.link false
              (relpathComps src dst.dropLast))]) fuel dst = true
        · simp [h3]
        · rw [Bool.not_eq_true] at h3
          simp [h3, lookupFS_append_right _ hdst]
  · intro fuel fs src dst hfuel hsrc hdst hcs hcd
    obtain ⟨k, rfl⟩ := Nat.exists_eq_add_of_le hfuel
    have hne : src ≠ dst := by
      intro e
      rw [e, hdst] at hsrc
      exact Option.noConfusion hsrc
    have hex1 : existsFS fs (2 + k) dst = false := existsFS_of_lookup_none hdst _
    have h2 : ¬(lookupFS fs dst).isSome = true := by
      rw [hdst]
      simp
    have hlook : lookupFS (fs ++ [(dst, FSEntry.link false
        (relpathComps src dst.dropLast))]) dst =
          some (.link false (relpathComps src dst.dropLast)) :=
      lookupFS_append_right _ hdst
    have hlooksrc : lookupFS (fs ++ [(dst, FSEntry.link false
        (relpathComps src dst.dropLast))]) src = some .file := by
      rw [lookupFS_append_other _ hne]
      exact hsrc
    have hres : resolveTarget dst.dropLast false (relpathComps src dst.dropLast)
        = src := by
      unfold resolveTarget
      simp only [Bool.false_eq_true, if_false]
      exact resolve_relpathComps src dst.dropLast hcs hcd
    have hstep : (2 : Nat) + k = (k + 1) + 1 := by omega
    have hex2 : existsFS (fs ++ [(dst, FSEntry.link false
        (relpathComps src dst.dropLast))]) (2 + k) dst = true := by
      rw [hstep, existsFS_succ_link hlook, hres, existsFS_succ_file hlooksrc]
    have hinner : create_relative_symlink (2 + k) fs src dst =
        (fs ++ [(dst, FSEntry.link false (relpathComps src dst.dropLast))],
         true) := by
      simp [create_relative_symlink, hex1, h2]
    rw [hinner]
    simp only []
    rw [crs_noop_of_exists _ _ _ _ hex2]

/-- Witness for the amended C5 at concrete inputs. -/
theorem claim_C5_witness :
    (existsFS [((["d", "x"] : Path), FSEntry.file)] 2 ["d", "x"] = true ∧
      create_relative_symlink 2 [((["d", "x"] : Path), FSEntry.file)]
        ["s"] ["d", "x"] = ([((["d", "x"] : Path), FSEntry.file)], true)) ∧
    (create_relative_symlink 2
        (create_relative_symlink 2 [((["s"] : Path), FSEntry.file)]
          ["s"] ["d", "x"]).1 ["s"] ["d", "x"]).1 =
      (create_relative_symlink 2 [((["s"] : Path), FSEntry.file)]
        ["s"] ["d", "x"]).1 ∧
    (create_relative_symlink 2
        (create_relative_symlink 2 [((["s"] : Path), FSEntry.file)]
          ["s"] ["d", "x"]).1 ["s"] ["d", "x"]).2 = true :=
  ⟨⟨by decide,
    claim_C5_amended_idempotent.1 2 [((["d", "x"] : Path), FSEntry.file)]
      ["s"] ["d", "x"] (by decide)⟩,
   claim_C5_amended_idempotent.2.1 2 [((["s"] : Path), FSEntry.file)]
     ["s"] ["d", "x"],
   claim_C5_amended_idempotent.2.2 2 [((["s"] : Path), FSEntry.file)]
     ["s"] ["d", "x"] (by decide) (by decide) (by decide) (by decide)
     (by decide)⟩

/-! ### Claims C7 and C9: the failure journal -/

theorem count_eq_one_of_mem_nodup {α : Type} [BEq α] [LawfulBEq α]
    {l : List α} {a : α} (hnd : l.Nodup) (h : a ∈ l) : l.count a = 1 := by
  induction l with
  | nil => simp at h
  | cons x xs ih =>
    rw [List.nodup_cons] at hnd
    rw [List.count_cons]
    rcases List.mem_cons.mp h with rfl | hmem
    · rw [List.count_eq_zero_of_not_mem hnd.1]
      simp
    · have hne : x ≠ a := fun e => hnd.1 (e ▸ hmem)
      rw [ih hnd.2 hmem]
      simp [hne]

theorem mem_mark_as_failed_self (journal : List (List String))
    (filePath mixedPath : Path) :
    relpathComps filePath mixedPath ∈ mark_as_failed journal filePath mixedPath := by
  unfold mark_as_failed
  by_cases h : relpathComps filePath mixedPath ∈ journal
  · rwa [if_pos h]
  · rw [if_neg h]
    simp

theorem mark_as_failed_of_mem {journal : List (List String)}
    {filePath mixedPath : Path}
    (h : relpathComps filePath mixedPath ∈ journal) :
    mark_as_failed journal filePath mixedPath = journal := by
  unfold mark_as_failed
  rw [if_pos h]

theorem mem_mark_as_failed_of_mem {journal : List (List String)} {x : List String}
    (filePath mixedPath : Path) (h : x ∈ journal) :
    x ∈ mark_as_failed journal filePath mixedPath := by
  unfold mark_as_failed
  by_cases hm : relpathComps filePath mixedPath ∈ journal
  · rwa [if_pos hm]
  · rw [if_neg hm]
    exact List.mem_append_left _ h

/-- Claim C7: marking the same source as failed twice yields the same
journal as marking once; on a duplicate-free journal the marked entry
occurs exactly once and the journal stays duplicate-free; marking never
removes an entry; and the sweep's compaction keeps exactly the entries
whose resolved source still exists. -/
theorem claim_C7_journal_dedup_compaction :
    (∀ (journal : List (List String)) (filePath mixedPath : Path),
      mark_as_failed (mark_as_failed journal filePath mixedPath) filePath
          mixedPath =
        mark_as_failed journal filePath mixedPath) ∧
    (∀ (journal : List (List String)) (filePath mixedPath : Path),
      journal.Nodup →
      (mark_as_failed journal filePath mixedPath).Nodup ∧
      (mark_as_failed journal filePath mixedPath).count
          (relpathComps filePath mixedPath) = 1) ∧
    (∀ (journal : List (List String)) (filePath mixedPath : Path)
        (x : List String), x ∈ journal →
      x ∈ mark_as_failed journal filePath mixedPath) ∧
    (∀ (fuel : Nat) (fs : FS) (mixedPath : Path) (journal : List (List String))
        (rel : List String),
      rel ∈ compactFailedLines fuel fs mixedPath journal ↔
        rel ∈ journal ∧ existsFS fs fuel (mixedPath ++ rel) = true) := by
  refine ⟨?_, ?_, fun j fp m x h => mem_mark_as_failed_of_mem fp m h, ?_⟩
  · intro journal filePath mixedPath
    exact mark_as_failed_of_mem
      (mem_mark_as_failed_self journal filePath mixedPath)
  · intro journal filePath mixedPath hnd
    unfold mark_as_failed
    by_cases h : relpathComps filePath mixedPath ∈ journal
    · rw [if_pos h]
      exact ⟨hnd, count_eq_one_of_mem_nodup hnd h⟩
    · rw [if_neg h]
      constructor
      · rw [List.nodup_append]
        exact ⟨hnd, List.nodup_singleton _, by simpa using fun hx => (h hx).elim⟩
      · rw [List.count_append, List.count_eq_zero_of_not_mem h]
        simp
  · intro fuel fs mixedPath journal rel
    unfold compactFailedLines
    rw [List.mem_filter]

/-- Witness for C7 at concrete inputs. -/
theorem claim_C7_witness :
    (mark_as_failed (mark_as_failed [] ["mix", "a.mkv"] ["mix"]) ["mix", "a.mkv"]
        ["mix"] =
      mark_as_failed [] ["mix", "a.mkv"] ["mix"]) ∧
    ((mark_as_failed [] ["mix", "a.mkv"] ["mix"]).Nodup ∧
      (mark_as_failed [] ["mix", "a.mkv"] ["mix"]).count
        (relpathComps ["mix", "a.mkv"] ["mix"]) = 1) ∧
    (["b.mkv"] : List String) ∈
        mark_as_failed [["b.mkv"]] ["mix", "a.mkv"] ["mix"] ∧
    (([("a.mkv" : String)] ∈
        compactFailedLines 2 [((["mix", "a.mkv"] : Path), FSEntry.file)]
          ["mix"] [["a.mkv"]]) ↔
      ([("a.mkv" : String)] ∈ ([["a.mkv"]] : List (List String)) ∧
        existsFS [((["mix", "a.mkv"] : Path), FSEntry.file)] 2
          (["mix"] ++ ["a.mkv"]) = true)) :=
  ⟨claim_C7_journal_dedup_compaction.1 [] ["mix", "a.mkv"] ["mix"],
   claim_C7_journal_dedup_compaction.2.1 [] ["mix", "a.mkv"] ["mix"]
     List.nodup_nil,
   claim_C7_journal_dedup_compaction.2.2.1 [["b.mkv"]]
     ["mix", "a.mkv"] ["mix"] ["b.mkv"] (by decide),
   claim_C7_journal_dedup_compaction.2.2.2 2
     [((["mix", "a.mkv"] : Path), FSEntry.file)] ["mix"] [["a.mkv"]]
     ["a.mkv"]⟩

/-- Claim C9: after marking a source path under the inbox root as failed
against either destination root, the failed-sources set computed from both
roots' journals contains that source's absolute path. -/
theorem claim_C9_journal_round_trip :
    ∀ (moviesJournal seriesJournal : List (List String)) (p mixedPath : Path),
      mixedPath <+: p → CleanPath p →
      p ∈ get_failed_files (mark_as_failed moviesJournal p mixedPath)
          seriesJournal mixedPath ∧
      p ∈ get_failed_files moviesJournal
          (mark_as_failed seriesJournal p mixedPath) mixedPath := by
  intro mJ sJ p mixed hpre hclean
  have hjoin : normPath (mixed ++ relpathComps p mixed) = p := by
    rw [relpathComps_of_isPrefix hpre]
    obtain ⟨t, rfl⟩ := hpre
    rw [List.drop_left, normPath_clean _ hclean]
  constructor
  · have hm := List.mem_map_of_mem (fun rel => normPath (mixed ++ rel))
      (List.mem_append_left sJ (mem_mark_as_failed_self mJ p mixed))
    unfold get_failed_files
    simp only [hjoin] at hm
    exact hm
  · have hm := List.mem_map_of_mem (fun rel => normPath (mixed ++ rel))
      (List.mem_append_right mJ (mem_mark_as_failed_self sJ p mixed))
    unfold get_failed_files
    simp only [hjoin] at hm
    exact hm

/-- Witness for C9 at concrete inputs. -/
theorem claim_C9_witness :
    (["mix", "a.mkv"] : Path) ∈
        get_failed_files (mark_as_failed [] ["mix", "a.mkv"] ["mix"]) []
          ["mix"] ∧
    (["mix", "a.mkv"] : Path) ∈
        get_failed_files [] (mark_as_failed [] ["mix", "a.mkv"] ["mix"])
          ["mix"] :=
  claim_C9_journal_round_trip [] [] ["mix", "a.mkv"] ["mix"] (by decide)
    (by decide)

/-! ### Claim C1: whole-batch failure on classifier mismatch -/

theorem mem_foldl_mark_of_mem {mixedPath : Path} (l : List Path)
    (j : List (List String)) {x : List String} (h : x ∈ j) :
    x ∈ l.foldl (fun acc fp => mark_as_failed acc fp mixedPath) j := by
  induction l generalizing j with
  | nil => exact h
  | cons fp l ih => exact ih _ (mem_mark_as_failed_of_mem fp mixedPath h)

theorem mem_foldl_mark_self {mixedPath : Path} (l : List Path)
    (j : List (List String)) {fp : Path} (h : fp ∈ l) :
    relpathComps fp mixedPath ∈
      l.foldl (fun acc fp => mark_as_failed acc fp mixedPath) j := by
  induction l generalizing j with
  | nil => simp at h
  | cons fp0 l ih =>
    rcases List.mem_cons.mp h with rfl | hmem
    · exact mem_foldl_mark_of_mem l _ (mem_mark_as_failed_self j fp mixedPath)
    · exact ih _ hmem

/-- Claim C1: when the classifier returns no result for a batch's surviving
files, or a result list of the wrong length, `_process_batch` appends every
surviving file to the failure journal and leaves the media state (links,
metadata sidecars, sidecar links — everything the per-item processors
would create) completely unchanged: no partial application. -/
theorem claim_C1_batch_mismatch_no_partial_application :
    ∀ {α : Type} (sourceExists : Path → Bool)
      (classify : List String → List String → Option (List MediaInfo))
      (procMovie procSeries : Path → MediaInfo → α → α × Bool)
      (mixedPath folderPath : Path) (filePaths : List Path)
      (st : α × List (List String)),
      (classify ((filePaths.filter sourceExists).map baseName)
          (relpathComps folderPath mixedPath) = none ∨
        ∃ infos, classify ((filePaths.filter sourceExists).map baseName)
            (relpathComps folderPath mixedPath) = some infos ∧
          infos.length ≠ (filePaths.filter sourceExists).length) →
      (process_batch sourceExists classify procMovie procSeries mixedPath
          folderPath filePaths st).1 = st.1 ∧
      ∀ fp ∈ filePaths.filter sourceExists,
        relpathComps fp mixedPath ∈
          (process_batch sourceExists classify procMovie procSeries mixedPath
            folderPath filePaths st).2 := by
  intro α sourceExists classify procMovie procSeries mixedPath folderPath
    filePaths st hmis
  unfold process_batch
  by_cases hempty : (filePaths.filter sourceExists).isEmpty
  · rw [if_pos hempty]
    refine ⟨rfl, fun fp hfp => ?_⟩
    rw [List.isEmpty_iff] at hempty
    rw [hempty] at hfp
    simp at hfp
  · rw [if_neg hempty]
    rcases hmis with hnone | ⟨infos, hsome, hlen⟩
    · simp only [hnone]
      exact ⟨trivial, fun fp hfp => mem_foldl_mark_self _ _ hfp⟩
    · simp only [hsome]
      rw [if_pos hlen]
      exact ⟨rfl, fun fp hfp => mem_foldl_mark_self _ _ hfp⟩

/-- Witness for C1 at concrete inputs: a one-file batch whose classifier
returns no result. -/
theorem claim_C1_witness :
    (process_batch (fun _ => true) (fun _ _ => none)
        (fun _ _ a => (a + 1, true)) (fun _ _ a => (a + 2, true))
        ["mix"] ["mix", "sh"] [["mix", "sh", "e1.mkv"]]
        ((5 : Nat), [])).1 = 5 ∧
    relpathComps ["mix", "sh", "e1.mkv"] ["mix"] ∈
      (process_batch (fun _ => true) (fun _ _ => none)
        (fun _ _ a => (a + 1, true)) (fun _ _ a => (a + 2, true))
        ["mix"] ["mix", "sh"] [["mix", "sh", "e1.mkv"]]
        ((5 : Nat), [])).2 := by
  have h := claim_C1_batch_mismatch_no_partial_application
    (fun _ => true) (fun _ _ => none)
    (fun _ _ a => (a + 1, true)) (fun _ _ a => (a + 2, true))
    ["mix"] ["mix", "sh"] [["mix", "sh", "e1.mkv"]] ((5 : Nat), [])
    (Or.inl rfl)
  exact ⟨h.1, h.2 ["mix", "sh", "e1.mkv"] (by decide)⟩

/-! ### Claim C8: the per-folder pending-batch state machine -/

theorem find?_filter_of_imp {α : Type} (p q : α → Bool) (l : List α)
    (h : ∀ a, p a = true → q a = true) :
    (l.filter q).find? p = l.find? p := by
  induction l with
  | nil => rfl
  | cons a l ih =>
    by_cases hq : q a = true
    · rw [List.filter_cons_of_pos hq]
      by_cases hp : p a = true
      · rw [List.find?_cons_of_pos _ hp, List.find?_cons_of_pos _ hp]
      · rw [List.find?_cons_of_neg _ hp, List.find?_cons_of_neg _ hp, ih]
    · rw [List.filter_cons_of_neg hq, ih,
        List.find?_cons_of_neg _ (fun hp => hq (h a hp))]

theorem lookupPending_setPending_self (d : List (Path × PendingBatch))
    (folder : Path) (b : PendingBatch) :
    lookupPending (setPending d folder b) folder = some b := by
  unfold lookupPending setPending
  rw [List.find?_cons_of_pos _ (by simp)]
  rfl

theorem lookupPending_setPending_other (d : List (Path × PendingBatch))
    (folder f : Path) (b : PendingBatch) (h : f ≠ folder) :
    lookupPending (setPending d folder b) f = lookupPending d f := by
  unfold lookupPending setPending
  rw [List.find?_cons_of_neg _ (by simp [Ne.symm h]),
    find?_filter_of_imp _ _ _ (fun a ha => ?_)]
  simp only [decide_eq_true_eq] at ha
  simp [ha, h]

theorem lookupPending_popPending_self (d : List (Path × PendingBatch))
    (folder : Path) :
    lookupPending (popPending d folder) folder = none := by
  unfold lookupPending popPending
  rw [List.find?_eq_none.mpr]
  · rfl
  · intro a ha
    rw [List.mem_filter] at ha
    simp only [decide_eq_true_eq] at ha
    simp [ha.2]

theorem lookupPending_popPending_other (d : List (Path × PendingBatch))
    (folder f : Path) (h : f ≠ folder) :
    lookupPending (popPending d folder) f = lookupPending d f := by
  unfold lookupPending popPending
  rw [find?_filter_of_imp _ _ _ (fun a ha => ?_)]
  simp only [decide_eq_true_eq] at ha
  simp [ha, h]

theorem queueFile_eq_some (d : Debouncer) (fp : Path) (b : PendingBatch)
    (h : lookupPending d.pending fp.dropLast = some b) :
    queueFile d fp =
      { pending := setPending d.pending fp.dropLast
          ⟨addFile b.files fp, some d.nextId⟩,
        armed := (d.nextId, fp.dropLast) :: d.armed,
        cancelled := match b.timer with
          | some tid => tid :: d.cancelled
          | none => d.cancelled,
        fired := d.fired,
        nextId := d.nextId + 1,
        delivered := d.delivered } := by
  simp only [queueFile, h, Option.getD_some]

theorem queueFile_eq_none (d : Debouncer) (fp : Path)
    (h : lookupPending d.pending fp.dropLast = none) :
    queueFile d fp =
      { pending := setPending d.pending fp.dropLast ⟨[fp], some d.nextId⟩,
        armed := (d.nextId, fp.dropLast) :: d.armed,
        cancelled := d.cancelled,
        fired := d.fired,
        nextId := d.nextId + 1,
        delivered := d.delivered } := by
  simp only [queueFile, h, Option.getD_none, addFile, List.not_mem_nil,
    if_neg, List.nil_append]
  rfl

theorem triggerBatch_eq_some (d : Debouncer) (tid : Nat) (f : Path)
    (b : PendingBatch) (h : lookupPending d.pending f = some b) :
    triggerBatch d tid f =
      { pending := popPending d.pending f,
        armed := d.armed,
        cancelled := d.cancelled,
        fired := tid :: d.fired,
        nextId := d.nextId,
        delivered := if b.files.isEmpty then d.delivered
          else d.delivered ++ [(f, b.files)] } := by
  unfold triggerBatch
  rw [h]

theorem triggerBatch_eq_none (d : Debouncer) (tid : Nat) (f : Path)
    (h : lookupPending d.pending f = none) :
    triggerBatch d tid f = { d with fired := tid :: d.fired } := by
  unfold triggerBatch
  rw [h]

theorem debInv_init : DebInv initDebouncer := by
  constructor
  · intro f t hlive
    rcases hlive with ⟨harm, _, _⟩
    simp [initDebouncer] at harm
  · intro tf htf
    simp [initDebouncer] at htf

theorem debInv_queue (d : Debouncer) (inv : DebInv d) (fp : Path) :
    DebInv (queueFile d fp) := by
  cases hlook : lookupPending d.pending fp.dropLast with
  | none =>
    rw [queueFile_eq_none d fp hlook]
    constructor
    · intro f t hlive
      rcases hlive with ⟨harm, hcan, hfir⟩
      simp only [List.mem_cons] at harm
      rcases harm with heq | harm
      · injection heq with h1 h2
        subst h1; subst h2
        exact ⟨[fp], lookupPending_setPending_self _ _ _⟩
      · have hl : liveTimer d t f := ⟨harm, hcan, hfir⟩
        obtain ⟨fl, hfl⟩ := inv.1 f t hl
        by_cases hf : f = fp.dropLast
        · subst hf
          rw [hfl] at hlook
          exact Option.noConfusion hlook
        · exact ⟨fl, by rw [lookupPending_setPending_other _ _ _ _ hf]; exact hfl⟩
    · intro tf htf
      simp only [List.mem_cons] at htf
      rcases htf with rfl | htf
      · simp
      · exact Nat.lt_succ_of_lt (inv.2 tf htf)
  | some b =>
    rw [queueFile_eq_some d fp b hlook]
    constructor
    · intro f t hlive
      rcases hlive with ⟨harm, hcan, hfir⟩
      simp only [List.mem_cons] at harm
      rcases harm with heq | harm
      · injection heq with h1 h2
        subst h1; subst h2
        exact ⟨addFile b.files fp, lookupPending_setPending_self _ _ _⟩
      · have hcan' : t ∉ d.cancelled := by
          intro hmem
          apply hcan
          cases htimer : b.timer with
          | none => simpa [htimer] using hmem
          | some tid => simp [htimer]; right; exact hmem
        have hl : liveTimer d t f := ⟨harm, hcan', hfir⟩
        obtain ⟨fl, hfl⟩ := inv.1 f t hl
        by_cases hf : f = fp.dropLast
        · subst hf
          rw [hfl] at hlook
          injection hlook with hb
          subst hb
          exfalso
          apply hcan
          simp
        · exact ⟨fl, by rw [lookupPending_setPending_other _ _ _ _ hf]; exact hfl⟩
    · intro tf htf
      simp only [List.mem_cons] at htf
      rcases htf with rfl | htf
      · simp
      · exact Nat.lt_succ_of_lt (inv.2 tf htf)

theorem debInv_fire (d : Debouncer) (inv : DebInv d) (tid : Nat) (f0 : Path)
    (hvalid : validOp d (.fire tid f0) = true) :
    DebInv (triggerBatch d tid f0) := by
  have hv : ((tid, f0) ∈ d.armed ∧ tid ∉ d.cancelled) ∧ tid ∉ d.fired := by
    simpa [validOp] using hvalid
  have hlive0 : liveTimer d tid f0 := ⟨hv.1.1, hv.1.2, hv.2⟩
  obtain ⟨fl0, hfl0⟩ := inv.1 f0 tid hlive0
  rw [triggerBatch_eq_some d tid f0 _ hfl0]
  constructor
  · intro f t hlive
    rcases hlive with ⟨harm, hcan, hfir⟩
    simp only [List.mem_cons] at hfir
    push_neg at hfir
    have hl : liveTimer d t f := ⟨harm, hcan, hfir.2⟩
    obtain ⟨fl, hfl⟩ := inv.1 f t hl
    by_cases hf : f = f0
    · subst hf
      rw [hfl] at hfl0
      injection hfl0 with hb
      injection hb with hb1 hb2
      injection hb2 with hb3
      exfalso
      omega
    · exact ⟨fl, by rw [lookupPending_popPending_other _ _ _ hf]; exact hfl⟩
  · exact inv.2

theorem debInv_runD : ∀ (ops : List DOp) (d : Debouncer),
    validTrace d ops = true → DebInv d → DebInv (runD d ops) := by
  intro ops
  induction ops with
  | nil => intro d _ inv; exact inv
  | cons op ops ih =>
    intro d hvalid inv
    unfold validTrace at hvalid
    rw [Bool.and_eq_true] at hvalid
    cases op with
    | queue fp => exact ih _ hvalid.2 (debInv_queue d inv fp)
    | fire tid f0 => exact ih _ hvalid.2 (debInv_fire d inv tid f0 hvalid.1)

theorem deliveredCount_queueFile (d : Debouncer) (fp f : Path) :
    deliveredCount (queueFile d fp) f = deliveredCount d f := by
  cases hlook : lookupPending d.pending fp.dropLast with
  | none => rw [queueFile_eq_none d fp hlook]; rfl
  | some b => rw [queueFile_eq_some d fp b hlook]; rfl

theorem pendingFlag_queueFile_other (d : Debouncer) (fp f : Path)
    (hf : fp.dropLast ≠ f) :
    pendingFlag (queueFile d fp) f = pendingFlag d f := by
  have hpend : lookupPending (queueFile d fp).pending f =
      lookupPending d.pending f := by
    cases hlook : lookupPending d.pending fp.dropLast with
    | none =>
      rw [queueFile_eq_none d fp hlook]
      exact lookupPending_setPending_other _ _ _ _ (Ne.symm hf)
    | some b =>
      rw [queueFile_eq_some d fp b hlook]
      exact lookupPending_setPending_other _ _ _ _ (Ne.symm hf)
  unfold pendingFlag
  rw [hpend]

theorem count_queueFile (d : Debouncer) (fp f : Path) :
    deliveredCount (queueFile d fp) f + pendingFlag (queueFile d fp) f ≤
      deliveredCount d f + pendingFlag d f +
        (if fp.dropLast = f then 1 else 0) := by
  rw [deliveredCount_queueFile]
  by_cases hf : fp.dropLast = f
  · have hle : pendingFlag (queueFile d fp) f ≤ 1 := by
      unfold pendingFlag
      split <;> omega
    rw [if_pos hf]
    omega
  · rw [pendingFlag_queueFile_other d fp f hf, if_neg hf]
    omega

theorem triggerBatch_delivered (d : Debouncer) (tid : Nat) (f0 : Path)
    (b : PendingBatch) (h : lookupPending d.pending f0 = some b) :
    (triggerBatch d tid f0).delivered =
      if b.files.isEmpty then d.delivered
      else d.delivered ++ [(f0, b.files)] := by
  rw [triggerBatch_eq_some d tid f0 b h]

theorem triggerBatch_pending (d : Debouncer) (tid : Nat) (f0 : Path)
    (b : PendingBatch) (h : lookupPending d.pending f0 = some b) :
    (triggerBatch d tid f0).pending = popPending d.pending f0 := by
  rw [triggerBatch_eq_some d tid f0 b h]

theorem count_triggerBatch (d : Debouncer) (tid : Nat) (f0 f : Path) :
    deliveredCount (triggerBatch d tid f0) f +
        pendingFlag (triggerBatch d tid f0) f ≤
      deliveredCount d f + pendingFlag d f := by
  cases hlook : lookupPending d.pending f0 with
  | none =>
    rw [triggerBatch_eq_none d tid f0 hlook]
    exact Nat.le_refl _
  | some b =>
    unfold deliveredCount pendingFlag
    rw [triggerBatch_delivered d tid f0 b hlook,
      triggerBatch_pending d tid f0 b hlook]
    by_cases hf : f = f0
    · subst hf
      rw [lookupPending_popPending_self, hlook]
      by_cases hemp : b.files.isEmpty
      · rw [if_pos hemp]
        simp
      · rw [if_neg hemp, List.filter_append, List.length_append]
        simp
    · rw [lookupPending_popPending_other _ _ _ hf]
      by_cases hemp : b.files.isEmpty
      · rw [if_pos hemp]
      · rw [if_neg hemp, List.filter_append, List.length_append]
        have hz : (List.filter (fun e => decide (e.1 = f))
            [(f0, b.files)]).length = 0 := by
          simp [Ne.symm hf]
        omega

theorem count_runD : ∀ (ops : List DOp) (d : Debouncer) (f : Path),
    deliveredCount (runD d ops) f + pendingFlag (runD d ops) f ≤
      deliveredCount d f + pendingFlag d f + queueCount ops f := by
  intro ops
  induction ops with
  | nil =>
    intro d f
    simp [runD, queueCount]
  | cons op ops ih =>
    intro d f
    cases op with
    | queue fp =>
      have h1 := ih (queueFile d fp) f
      have hstep := count_queueFile d fp f
      have hq : queueCount (DOp.queue fp :: ops) f =
          queueCount ops f + (if fp.dropLast = f then 1 else 0) := by
        unfold queueCount
        rw [List.countP_cons]
        by_cases hfp : fp.dropLast = f
        · rw [if_pos hfp, if_pos (by simpa using hfp)]
        · rw [if_neg hfp, if_neg (by simpa using hfp)]
      show deliveredCount (runD (queueFile d fp) ops) f +
        pendingFlag (runD (queueFile d fp) ops) f ≤ _
      rw [hq]
      omega
    | fire tid f0 =>
      have h1 := ih (triggerBatch d tid f0) f
      have hstep := count_triggerBatch d tid f0 f
      have hq : queueCount (DOp.fire tid f0 :: ops) f = queueCount ops f := by
        unfold queueCount
        rw [List.countP_cons]
        simp
      show deliveredCount (runD (triggerBatch d tid f0) ops) f +
        pendingFlag (runD (triggerBatch d tid f0) ops) f ≤ _
      rw [hq]
      omega
theorem claim_C8_debouncer_state_machine :
    ∀ (ops : List DOp), validTrace initDebouncer ops = true →
      (∀ (f : Path) (t1 t2 : Nat),
        liveTimer (runD initDebouncer ops) t1 f →
        liveTimer (runD initDebouncer ops) t2 f → t1 = t2) ∧
      (∀ f : Path,
        deliveredCount (runD initDebouncer ops) f +
          pendingFlag (runD initDebouncer ops) f ≤ queueCount ops f) ∧
      (∀ (fp : Path) (b : PendingBatch),
        lookupPending (runD initDebouncer ops).pending fp.dropLast = some b →
        lookupPending (queueFile (runD initDebouncer ops) fp).pending
            fp.dropLast =
          some ⟨addFile b.files fp, some (runD initDebouncer ops).nextId⟩ ∧
        fp ∈ addFile b.files fp ∧
        ((runD initDebouncer ops).nextId, fp.dropLast) ∈
          (queueFile (runD initDebouncer ops) fp).armed ∧
        (∀ tid, b.timer = some tid →
          tid ∈ (queueFile (runD initDebouncer ops) fp).cancelled)) ∧
      (∀ (tid : Nat) (f : Path) (b : PendingBatch),
        lookupPending (runD initDebouncer ops).pending f = some b →
        lookupPending (triggerBatch (runD initDebouncer ops) tid f).pending f =
          none ∧
        (triggerBatch (runD initDebouncer ops) tid f).delivered =
          (if b.files.isEmpty then (runD initDebouncer ops).delivered
           else (runD initDebouncer ops).delivered ++ [(f, b.files)])) := by
  intro ops hvalid
  have inv := debInv_runD ops initDebouncer hvalid debInv_init
  refine ⟨?_, ?_, ?_, ?_⟩
  · intro f t1 t2 h1 h2
    obtain ⟨fl1, hfl1⟩ := inv.1 f t1 h1
    obtain ⟨fl2, hfl2⟩ := inv.1 f t2 h2
    rw [hfl1] at hfl2
    injection hfl2 with hb
    injection hb with hb1 hb2
    injection hb2
  · intro f
    have h := count_runD ops initDebouncer f
    have h0 : deliveredCount initDebouncer f = 0 := rfl
    have h1 : pendingFlag initDebouncer f = 0 := rfl
    omega
  · intro fp b hb
    set d := runD initDebouncer ops
    rw [queueFile_eq_some d fp b hb]
    refine ⟨lookupPending_setPending_self _ _ _, ?_, List.mem_cons_self _ _, ?_⟩
    · unfold addFile
      by_cases hm : fp ∈ b.files
      · rwa [if_pos hm]
      · rw [if_neg hm]
        simp
    · intro tid htid
      rw [htid]
      simp
  · intro tid f b hb
    set d := runD initDebouncer ops
    rw [triggerBatch_eq_some d tid f b hb]
    exact ⟨lookupPending_popPending_self _ _, rfl⟩

/-- Witness for C8: a concrete two-insertion, one-firing trace. -/
theorem claim_C8_witness :
    validTrace initDebouncer
        [.queue ["a", "f1"], .queue ["a", "f2"], .fire 1 ["a"]] = true ∧
    (∀ t1 t2 : Nat,
      liveTimer (runD initDebouncer
        [.queue ["a", "f1"], .queue ["a", "f2"], .fire 1 ["a"]]) t1 ["a"] →
      liveTimer (runD initDebouncer
        [.queue ["a", "f1"], .queue ["a", "f2"], .fire 1 ["a"]]) t2 ["a"] →
      t1 = t2) ∧
    deliveredCount (runD initDebouncer
        [.queue ["a", "f1"], .queue ["a", "f2"], .fire 1 ["a"]]) ["a"] +
      pendingFlag (runD initDebouncer
        [.queue ["a", "f1"], .queue ["a", "f2"], .fire 1 ["a"]]) ["a"] ≤
      queueCount [.queue ["a", "f1"], .queue ["a", "f2"], .fire 1 ["a"]]
        ["a"] ∧
    lookupPending (triggerBatch (runD initDebouncer
        [DOp.queue ["a", "f1"]]) 0 ["a"]).pending ["a"] = none := by
  have h := claim_C8_debouncer_state_machine
    [.queue ["a", "f1"], .queue ["a", "f2"], .fire 1 ["a"]] (by decide)
  have h2 := claim_C8_debouncer_state_machine [.queue ["a", "f1"]] (by decide)
  refine ⟨by decide, h.1 ["a"], h.2.1 ["a"], ?_⟩
  exact (h2.2.2.2 0 ["a"] ⟨[["a", "f1"]], some 0⟩ (by decide)).1

/-! ### Lemmas about removal and the reconciliation sweep -/

theorem lookupFS_removeFS (fs : FS) (p x : Path) :
    lookupFS (removeFS fs p) x = if x = p then none else lookupFS fs x := by
  unfold lookupFS removeFS
  by_cases hx : x = p
  · rw [if_pos hx]
    subst hx
    rw [List.find?_eq_none.mpr]
    · rfl
    · intro a ha
      rw [List.mem_filter] at ha
      simp only [decide_eq_true_eq] at ha
      simp [ha.2]
  · rw [if_neg hx, find?_filter_of_imp _ _ _ (fun a ha => ?_)]
    simp only [decide_eq_true_eq] at ha
    simp [ha, hx]

theorem SubOf.refl (fs : FS) : SubOf fs fs := fun _ => Or.inr rfl

theorem SubOf.trans {fs1 fs2 fs3 : FS} (h12 : SubOf fs1 fs2)
    (h23 : SubOf fs2 fs3) : SubOf fs1 fs3 := by
  intro x
  rcases h12 x with h | h
  · exact Or.inl h
  · rcases h23 x with h' | h'
    · exact Or.inl (h.trans h')
    · exact Or.inr (h.trans h')

theorem subOf_removeFS (fs : FS) (p : Path) : SubOf (removeFS fs p) fs := by
  intro x
  rw [lookupFS_removeFS]
  by_cases hx : x = p
  · rw [if_pos hx]
    exact Or.inl rfl
  · rw [if_neg hx]
    exact Or.inr rfl

theorem existsFS_mono {fs' fs : FS} (hsub : SubOf fs' fs) :
    ∀ (fuel : Nat) (p : Path),
      existsFS fs' fuel p = true → existsFS fs fuel p = true := by
  intro fuel
  induction fuel with
  | zero => intro p h; exact absurd h (by simp [existsFS])
  | succ n ih =>
    intro p h
    rcases hsub p with hn | he
    · rw [existsFS_succ, hn] at h
      exact absurd h (by simp)
    · rw [existsFS_succ, he] at h
      rw [existsFS_succ]
      cases hl : lookupFS fs p with
      | none => rw [hl] at h; simp at h
      | some e =>
        rw [hl] at h
        cases e with
        | file => rfl
        | link a t => exact ih _ h

theorem existsFS_false_mono {fs' fs : FS} (hsub : SubOf fs' fs) {fuel : Nat}
    {p : Path} (h : existsFS fs fuel p = false) :
    existsFS fs' fuel p = false := by
  cases he : existsFS fs' fuel p with
  | false => rfl
  | true => rw [existsFS_mono hsub fuel p he] at h; exact h

theorem sweepStep_eq_none (fuel : Nat) (stems : List String) (cur : FS)
    (p : Path) (hl : lookupFS cur p = none) :
    sweepStep fuel stems cur p = cur := by
  unfold sweepStep
  rw [hl]

theorem sweepStep_eq_some (fuel : Nat) (stems : List String) (cur : FS)
    (p : Path) (e : FSEntry) (hl : lookupFS cur p = some e) :
    sweepStep fuel stems cur p =
      (if (isLinkE (some e) && !existsFS cur fuel p) = true then
        (if (hasExtIn (baseName p) video_extensions &&
            existsFS (removeFS cur p) fuel (nfoSibling p)) = true then
          removeFS (removeFS cur p) (nfoSibling p)
        else removeFS cur p)
      else if hasExtIn (baseName p) extra_extensions = true then
        (if stemMatches stems (baseName p) = true then cur else removeFS cur p)
      else if strEndsWithS (strLower (baseName p)) ".nfo" = true then
        (if stemOf (baseName p) ∈ stems then cur else removeFS cur p)
      else cur) := by
  unfold sweepStep
  rw [hl]

/-- Locality of one sweep step: it can remove only the walked file itself
and that file's same-stem metadata sidecar. -/
theorem sweepStep_lookup_other (fuel : Nat) (stems : List String) (cur : FS)
    (p x : Path) (hx : x ≠ p) (hn : x ≠ nfoSibling p) :
    lookupFS (sweepStep fuel stems cur p) x = lookupFS cur x := by
  cases hl : lookupFS cur p with
  | none => rw [sweepStep_eq_none fuel stems cur p hl]
  | some e =>
    rw [sweepStep_eq_some fuel stems cur p e hl]
    by_cases hbro : isLinkE (some e) && !existsFS cur fuel p
    · rw [if_pos hbro]
      by_cases hnfo : hasExtIn (baseName p) video_extensions &&
          existsFS (removeFS cur p) fuel (nfoSibling p)
      · rw [if_pos hnfo, lookupFS_removeFS, if_neg hn, lookupFS_removeFS,
          if_neg hx]
      · rw [if_neg hnfo, lookupFS_removeFS, if_neg hx]
    · rw [if_neg hbro]
      by_cases hext : hasExtIn (baseName p) extra_extensions = true
      · rw [if_pos hext]
        by_cases hm : stemMatches stems (baseName p) = true
        · rw [if_pos hm]
        · rw [if_neg hm, lookupFS_removeFS, if_neg hx]
      · rw [if_neg hext]
        by_cases hnfo : strEndsWithS (strLower (baseName p)) ".nfo" = true
        · rw [if_pos hnfo]
          by_cases hm : stemOf (baseName p) ∈ stems
          · rw [if_pos hm]
          · rw [if_neg hm, lookupFS_removeFS, if_neg hx]
        · rw [if_neg hnfo]

theorem sweepStep_subOf (fuel : Nat) (stems : List String) (cur : FS)
    (p : Path) : SubOf (sweepStep fuel stems cur p) cur := by
  intro x
  by_cases hx : x = p
  · subst hx
    cases hl : lookupFS cur x with
    | none =>
      rw [sweepStep_eq_none fuel stems cur x hl]
      exact Or.inr hl
    | some e =>
      rw [sweepStep_eq_some fuel stems cur x e hl]
      by_cases hbro : isLinkE (some e) && !existsFS cur fuel x
      · rw [if_pos hbro]
        by_cases hnfo : hasExtIn (baseName x) video_extensions &&
            existsFS (removeFS cur x) fuel (nfoSibling x)
        · rw [if_pos hnfo, lookupFS_removeFS]
          by_cases h2 : x = nfoSibling x
          · rw [if_pos h2]
            exact Or.inl rfl
          · rw [if_neg h2, lookupFS_removeFS, if_pos rfl]
            exact Or.inl rfl
        · rw [if_neg hnfo, lookupFS_removeFS, if_pos rfl]
          exact Or.inl rfl
      · rw [if_neg hbro]
        by_cases hext : hasExtIn (baseName x) extra_extensions = true
        · rw [if_pos hext]
          by_cases hm : stemMatches stems (baseName x) = true
          · rw [if_pos hm]
            exact Or.inr hl
          · rw [if_neg hm, lookupFS_removeFS, if_pos rfl]
            exact Or.inl rfl
        · rw [if_neg hext]
          by_cases hnfo : strEndsWithS (strLower (baseName x)) ".nfo" = true
          · rw [if_pos hnfo]
            by_cases hm : stemOf (baseName x) ∈ stems
            · rw [if_pos hm]
              exact Or.inr hl
            · rw [if_neg hm, lookupFS_removeFS, if_pos rfl]
              exact Or.inl rfl
          · rw [if_neg hnfo]
            exact Or.inr hl
  · by_cases hn : x = nfoSibling p
    · subst hn
      cases hl : lookupFS cur p with
      | none =>
        rw [sweepStep_eq_none fuel stems cur p hl]
        exact Or.inr rfl
      | some e =>
        rw [sweepStep_eq_some fuel stems cur p e hl]
        by_cases hbro : isLinkE (some e) && !existsFS cur fuel p
        · rw [if_pos hbro]
          by_cases hnfo : hasExtIn (baseName p) video_extensions &&
              existsFS (removeFS cur p) fuel (nfoSibling p)
          · rw [if_pos hnfo, lookupFS_removeFS, if_pos rfl]
            exact Or.inl rfl
          · rw [if_neg hnfo, lookupFS_removeFS, if_neg hx]
            exact Or.inr rfl
        · rw [if_neg hbro]
          by_cases hext : hasExtIn (baseName p) extra_extensions = true
          · rw [if_pos hext]
            by_cases hm : stemMatches stems (baseName p) = true
            · rw [if_pos hm]
              exact Or.inr rfl
            · rw [if_neg hm, lookupFS_removeFS, if_neg hx]
              exact Or.inr rfl
          · rw [if_neg hext]
            by_cases hnfo : strEndsWithS (strLower (baseName p)) ".nfo" = true
            · rw [if_pos hnfo]
              by_cases hm : stemOf (baseName p) ∈ stems
              · rw [if_pos hm]
                exact Or.inr rfl
              · rw [if_neg hm, lookupFS_removeFS, if_neg hx]
                exact Or.inr rfl
            · rw [if_neg hnfo]
              exact Or.inr rfl
    · rw [sweepStep_lookup_other fuel stems cur p x hx hn]
      exact Or.inr rfl

theorem sweepStep_none (fuel : Nat) (stems : List String) (cur : FS)
    (p x : Path) (h : lookupFS cur x = none) :
    lookupFS (sweepStep fuel stems cur p) x = none := by
  rcases sweepStep_subOf fuel stems cur p x with h' | h'
  · exact h'
  · rw [h', h]

/-! ### Extension disjointness: a name cannot carry two different
extensions, so the sweep's branches are mutually exclusive -/

theorem suffix_of_append_right {α : Type} {a b : List α} (t : List α)
    (h : a <:+ t ++ b) (hl : a.length ≤ b.length) : a <:+ b := by
  induction t with
  | nil => exact h
  | cons c t ih =>
    rcases List.suffix_cons_iff.mp h with heq | h'
    · exfalso
      have hlen := congrArg List.length heq
      simp [List.length_append] at hlen
      omega
    · exact ih h'

theorem suffix_comparable {α : Type} {a b n : List α} (h1 : a <:+ n)
    (h2 : b <:+ n) : a <:+ b ∨ b <:+ a := by
  by_cases hl : a.length ≤ b.length
  · obtain ⟨t2, rfl⟩ := h2
    exact Or.inl (suffix_of_append_right t2 h1 hl)
  · obtain ⟨t1, rfl⟩ := h1
    exact Or.inr (suffix_of_append_right t1 h2 (by omega))

theorem hasExtIn_iff {name : String} {exts : List String} :
    hasExtIn name exts = true ↔ ∃ e ∈ exts, e.data <:+ (strLower name).data := by
  unfold hasExtIn strEndsWithS
  rw [List.any_eq_true]
  constructor
  · rintro ⟨e, he, hd⟩
    exact ⟨e, he, of_decide_eq_true hd⟩
  · rintro ⟨e, he, hd⟩
    exact ⟨e, he, decide_eq_true hd⟩

theorem ext_disjoint_aux {name : String} {exts1 exts2 : List String}
    (hpair : ∀ e1 ∈ exts1, ∀ e2 ∈ exts2,
      ¬(e1.data <:+ e2.data) ∧ ¬(e2.data <:+ e1.data))
    (h1 : hasExtIn name exts1 = true) : hasExtIn name exts2 = false := by
  rw [← Bool.not_eq_true]
  intro h2
  obtain ⟨e1, he1, hs1⟩ := hasExtIn_iff.mp h1
  obtain ⟨e2, he2, hs2⟩ := hasExtIn_iff.mp h2
  rcases suffix_comparable hs1 hs2 with h | h
  · exact (hpair e1 he1 e2 he2).1 h
  · exact (hpair e1 he1 e2 he2).2 h

theorem video_not_extra {name : String}
    (h : hasExtIn name video_extensions = true) :
    hasExtIn name extra_extensions = false :=
  ext_disjoint_aux (by decide) h

theorem video_not_nfo {name : String}
    (h : hasExtIn name video_extensions = true) :
    strEndsWithS (strLower name) ".nfo" = false := by
  have h2 : hasExtIn name [".nfo"] = false := ext_disjoint_aux (by decide) h
  simpa [hasExtIn] using h2

theorem extra_not_nfo {name : String}
    (h : hasExtIn name extra_extensions = true) :
    strEndsWithS (strLower name) ".nfo" = false := by
  have h2 : hasExtIn name [".nfo"] = false := ext_disjoint_aux (by decide) h
  simpa [hasExtIn] using h2

theorem nfo_not_extra {name : String}
    (h : strEndsWithS (strLower name) ".nfo" = true) :
    hasExtIn name extra_extensions = false := by
  have h1 : hasExtIn name [".nfo"] = true := by simpa [hasExtIn] using h
  exact ext_disjoint_aux (by decide) h1

theorem nfoSibling_name_ends_nfo (p : Path) :
    strEndsWithS (strLower (baseName (nfoSibling p))) ".nfo" = true := by
  have hb : baseName (nfoSibling p) = stemOf (baseName p) ++ ".nfo" := by
    unfold nfoSibling baseName
    rw [List.getLastD_concat]
  unfold strEndsWithS strLower
  apply decide_eq_true
  rw [hb, String.data_append, List.map_append]
  have hmap : ".nfo".data.map Char.toLower = ".nfo".data := by decide
  show (".nfo" : String).data <:+ _
  rw [hmap]
  exact List.suffix_append _ _

theorem ne_nfoSibling_of_video {p p' : Path}
    (h : hasExtIn (baseName p) video_extensions = true) : p ≠ nfoSibling p' := by
  intro heq
  rw [heq] at h
  have h1 := video_not_nfo h
  rw [nfoSibling_name_ends_nfo] at h1
  exact Bool.noConfusion h1

theorem ne_nfoSibling_of_extra {p p' : Path}
    (h : hasExtIn (baseName p) extra_extensions = true) : p ≠ nfoSibling p' := by
  intro heq
  rw [heq] at h
  have h1 := extra_not_nfo h
  rw [nfoSibling_name_ends_nfo] at h1
  exact Bool.noConfusion h1

/-! ### Fold lemmas for sweepRoot -/

theorem underRoot_iff {root p : Path} :
    underRoot root p = true ↔ root <+: p ∧ p ≠ root := by
  unfold underRoot
  simp

theorem dropLast_append_ne_nil {α : Type} (a : List α) {b : List α}
    (hb : b ≠ []) : (a ++ b).dropLast = a ++ b.dropLast := by
  induction a with
  | nil => simp
  | cons x a ih =>
    have hne : a ++ b ≠ [] := by
      intro h
      rcases List.append_eq_nil.mp h with ⟨_, h2⟩
      exact hb h2
    rw [List.cons_append, List.dropLast_cons_of_ne_nil hne, ih]
    rfl

theorem underRoot_nfoSibling {root p : Path} (h : underRoot root p = true) :
    underRoot root (nfoSibling p) = true := by
  rw [underRoot_iff] at h ⊢
  obtain ⟨⟨t, rfl⟩, hne⟩ := h
  have ht : t ≠ [] := by
    rintro rfl
    simp at hne
  unfold nfoSibling
  rw [dropLast_append_ne_nil root ht, List.append_assoc]
  constructor
  · exact ⟨_, rfl⟩
  · intro heq
    have hlen := congrArg List.length heq
    simp at hlen

theorem mem_filesUnder_of_lookup {fs : FS} {p : Path} {e : FSEntry}
    (hl : lookupFS fs p = some e) (hroot : underRoot root p = true) :
    ∃ pe ∈ filesUnder fs root, pe.1 = p := by
  unfold lookupFS at hl
  rcases Option.map_eq_some'.mp hl with ⟨en, hfind, _⟩
  have hpe : en.1 = p := by
    have := List.find?_some hfind
    simpa using this
  have hmem : en ∈ fs := List.mem_of_find?_eq_some hfind
  refine ⟨en, List.mem_filter.mpr ⟨hmem, ?_⟩, hpe⟩
  rw [hpe]
  exact hroot

theorem foldl_sweep_subOf (fuel : Nat) (stems : List String) :
    ∀ (l : List (Path × FSEntry)) (cur : FS),
      SubOf (l.foldl (fun cur pe => sweepStep fuel stems cur pe.1) cur) cur := by
  intro l
  induction l with
  | nil => intro cur; exact SubOf.refl cur
  | cons pe l ih =>
    intro cur
    exact SubOf.trans (ih _) (sweepStep_subOf fuel stems cur pe.1)

theorem foldl_sweep_none (fuel : Nat) (stems : List String) :
    ∀ (l : List (Path × FSEntry)) (cur : FS) (x : Path),
      lookupFS cur x = none →
      lookupFS (l.foldl (fun cur pe => sweepStep fuel stems cur pe.1) cur) x =
        none := by
  intro l
  induction l with
  | nil => intro cur x h; exact h
  | cons pe l ih =>
    intro cur x h
    exact ih _ x (sweepStep_none fuel stems cur pe.1 x h)

theorem foldl_sweep_other (fuel : Nat) (stems : List String) (root : Path) :
    ∀ (l : List (Path × FSEntry)) (cur : FS) (x : Path),
      (∀ pe ∈ l, underRoot root pe.1 = true) → underRoot root x = false →
      lookupFS (l.foldl (fun cur pe => sweepStep fuel stems cur pe.1) cur) x =
        lookupFS cur x := by
  intro l
  induction l with
  | nil => intro cur x _ _; rfl
  | cons pe l ih =>
    intro cur x hall hx
    have hpe : underRoot root pe.1 = true := hall pe (List.mem_cons_self pe l)
    have hx1 : x ≠ pe.1 := by
      intro heq
      rw [heq, hpe] at hx
      exact Bool.noConfusion hx
    have hx2 : x ≠ nfoSibling pe.1 := by
      intro heq
      rw [heq, underRoot_nfoSibling hpe] at hx
      exact Bool.noConfusion hx
    rw [List.foldl_cons,
      ih _ x (fun pe' hpe' => hall pe' (List.mem_cons_of_mem pe hpe')) hx,
      sweepStep_lookup_other fuel stems cur pe.1 x hx1 hx2]

theorem sweepRoot_not_under (fuel : Nat) (fs : FS) (root x : Path)
    (hx : underRoot root x = false) :
    lookupFS (sweepRoot fuel fs root) x = lookupFS fs x := by
  unfold sweepRoot
  by_cases hr : root = []
  · rw [if_pos hr]
  · rw [if_neg hr]
    exact foldl_sweep_other fuel _ root (filesUnder fs root) fs x
      (fun pe hpe => (List.mem_filter.mp hpe).2) hx

theorem sweepRoot_none (fuel : Nat) (fs : FS) (root x : Path)
    (h : lookupFS fs x = none) :
    lookupFS (sweepRoot fuel fs root) x = none := by
  unfold sweepRoot
  by_cases hr : root = []
  · rw [if_pos hr]; exact h
  · rw [if_neg hr]
    exact foldl_sweep_none fuel _ (filesUnder fs root) fs x h

theorem sweepRoot_subOf (fuel : Nat) (fs : FS) (root : Path) :
    SubOf (sweepRoot fuel fs root) fs := by
  unfold sweepRoot
  by_cases hr : root = []
  · rw [if_pos hr]; exact SubOf.refl fs
  · rw [if_neg hr]
    exact foldl_sweep_subOf fuel _ (filesUnder fs root) fs

theorem existsFS_healthy_link {cur : FS} {p q : Path} {a : Bool}
    {t : List String} (hp : lookupFS cur p = some (.link a t))
    (hq : lookupFS cur q = some .file)
    (hres : resolveTarget p.dropLast a t = q) {fuel : Nat} (hfuel : 2 ≤ fuel) :
    existsFS cur fuel p = true := by
  obtain ⟨k, rfl⟩ := Nat.exists_eq_add_of_le hfuel
  have hstep : (2 : Nat) + k = (k + 1) + 1 := by omega
  rw [hstep, existsFS_succ_link hp, hres, existsFS_succ_file hq]

/-- A healthy video link whose target lives outside the walked root
survives the walk, together with its target. -/
theorem foldl_preserves_healthy (fuel : Nat) (stems : List String)
    (root : Path) (p q : Path) (a : Bool) (t : List String)
    (hqroot : underRoot root q = false)
    (hvid : hasExtIn (baseName p) video_extensions = true)
    (hres : resolveTarget p.dropLast a t = q) (hfuel : 2 ≤ fuel) :
    ∀ (l : List (Path × FSEntry)) (cur : FS),
      (∀ pe ∈ l, underRoot root pe.1 = true) →
      lookupFS cur p = some (.link a t) → lookupFS cur q = some .file →
      lookupFS (l.foldl (fun cur pe => sweepStep fuel stems cur pe.1) cur) p =
          some (.link a t) ∧
        lookupFS (l.foldl (fun cur pe => sweepStep fuel stems cur pe.1) cur) q =
          some .file := by
  intro l
  induction l with
  | nil => intro cur _ hp hq; exact ⟨hp, hq⟩
  | cons pe l ih =>
    intro cur hall hp hq
    have hpe : underRoot root pe.1 = true := hall pe (List.mem_cons_self pe l)
    have hq1 : lookupFS (sweepStep fuel stems cur pe.1) q = some .file := by
      have hqne : q ≠ pe.1 := by
        intro heq
        rw [heq, hpe] at hqroot
        exact Bool.noConfusion hqroot
      have hqnfo : q ≠ nfoSibling pe.1 := by
        intro heq
        rw [heq, underRoot_nfoSibling hpe] at hqroot
        exact Bool.noConfusion hqroot
      rw [sweepStep_lookup_other fuel stems cur pe.1 q hqne hqnfo]
      exact hq
    have hp1 : lookupFS (sweepStep fuel stems cur pe.1) p =
        some (.link a t) := by
      by_cases hpp : pe.1 = p
      · have hex : existsFS cur fuel p = true :=
          existsFS_healthy_link hp hq hres hfuel
        have hbro : (isLinkE (some (FSEntry.link a t)) &&
            !existsFS cur fuel p) = false := by
          rw [hex]
          rfl
        rw [hpp, sweepStep_eq_some fuel stems cur p _ hp,
          if_neg (by rw [hbro]; exact Bool.false_ne_true),
          if_neg (by rw [video_not_extra hvid]; exact Bool.false_ne_true),
          if_neg (by rw [video_not_nfo hvid]; exact Bool.false_ne_true)]
        exact hp
      · have hpn : p ≠ nfoSibling pe.1 := ne_nfoSibling_of_video hvid
        rw [sweepStep_lookup_other fuel stems cur pe.1 p
          (fun h => hpp h.symm) hpn]
        exact hp
    exact ih _ (fun pe' hpe' => hall pe' (List.mem_cons_of_mem pe hpe'))
      hp1 hq1

/-- A broken symlink under the walked root is removed by the walk. -/
theorem foldl_removes_broken (fuel : Nat) (stems : List String) (fs : FS)
    (p : Path) (a : Bool) (t : List String)
    (hfsp : lookupFS fs p = some (.link a t))
    (hex : existsFS fs fuel p = false) :
    ∀ (l : List (Path × FSEntry)) (cur : FS), SubOf cur fs →
      ((∃ pe ∈ l, pe.1 = p) ∨ lookupFS cur p = none) →
      lookupFS (l.foldl (fun cur pe => sweepStep fuel stems cur pe.1) cur) p =
        none := by
  intro l
  induction l with
  | nil =>
    intro cur _ hd
    rcases hd with ⟨pe, hpe, _⟩ | hnone
    · exact absurd hpe (List.not_mem_nil pe)
    · exact hnone
  | cons pe l ih =>
    intro cur hsub hd
    have hsub1 : SubOf (sweepStep fuel stems cur pe.1) cur :=
      sweepStep_subOf fuel stems cur pe.1
    cases hcur : lookupFS cur p with
    | none =>
      exact ih _ (SubOf.trans hsub1 hsub)
        (Or.inr (sweepStep_none fuel stems cur pe.1 p hcur))
    | some e =>
      have he : e = FSEntry.link a t := by
        rcases hsub p with hn | hagree
        · rw [hcur] at hn
          exact Option.noConfusion hn
        · rw [hcur, hfsp] at hagree
          injection hagree
      subst he
      by_cases hpp : pe.1 = p
      · have hexc : existsFS cur fuel p = false := existsFS_false_mono hsub hex
        have hbro : (isLinkE (some (FSEntry.link a t)) &&
            !existsFS cur fuel p) = true := by
          rw [hexc]
          rfl
        have hstep : lookupFS (sweepStep fuel stems cur pe.1) p = none := by
          rw [hpp, sweepStep_eq_some fuel stems cur p _ hcur, if_pos hbro]
          by_cases hnfo : (hasExtIn (baseName p) video_extensions &&
              existsFS (removeFS cur p) fuel (nfoSibling p)) = true
          · rw [if_pos hnfo, lookupFS_removeFS]
            by_cases h2 : p = nfoSibling p
            · rw [if_pos h2]
            · rw [if_neg h2, lookupFS_removeFS, if_pos rfl]
          · rw [if_neg hnfo, lookupFS_removeFS, if_pos rfl]
        exact ih _ (SubOf.trans hsub1 hsub) (Or.inr hstep)
      · cases hstep : lookupFS (sweepStep fuel stems cur pe.1) p with
        | none => exact ih _ (SubOf.trans hsub1 hsub) (Or.inr hstep)
        | some e2 =>
          rcases hd with ⟨pe', hpe', hpe'q⟩ | hnone
          · rcases List.mem_cons.mp hpe' with rfl | htail
            · exact absurd hpe'q hpp
            · exact ih _ (SubOf.trans hsub1 hsub) (Or.inl ⟨pe', htail, hpe'q⟩)
          · rw [hnone] at hcur
            exact Option.noConfusion hcur

/-- A broken video link under the walked root is removed together with its
same-stem metadata sidecar (a plain file, or already absent). -/
theorem foldl_removes_broken_video (fuel : Nat) (stems : List String)
    (fs : FS) (p : Path) (a : Bool) (t : List String)
    (hex : existsFS fs fuel p = false)
    (hvid : hasExtIn (baseName p) video_extensions = true) (hfuel : 1 ≤ fuel) :
    ∀ (l : List (Path × FSEntry)) (cur : FS), SubOf cur fs →
      ((lookupFS cur p = some (.link a t) ∧
          (lookupFS cur (nfoSibling p) = some .file ∨
            lookupFS cur (nfoSibling p) = none)) ∨
        (lookupFS cur p = none ∧ lookupFS cur (nfoSibling p) = none)) →
      ((∃ pe ∈ l, pe.1 = p) ∨
        (lookupFS cur p = none ∧ lookupFS cur (nfoSibling p) = none)) →
      lookupFS (l.foldl (fun cur pe => sweepStep fuel stems cur pe.1) cur) p =
          none ∧
        lookupFS (l.foldl (fun cur pe => sweepStep fuel stems cur pe.1) cur)
          (nfoSibling p) = none := by
  intro l
  induction l with
  | nil =>
    intro cur _ _ hd
    rcases hd with ⟨pe, hpe, _⟩ | hdone
    · exact absurd hpe (List.not_mem_nil pe)
    · exact hdone
  | cons pe l ih =>
    intro cur hsub hinv hd
    have hsub1 : SubOf (sweepStep fuel stems cur pe.1) cur :=
      sweepStep_subOf fuel stems cur pe.1
    have hpn : p ≠ nfoSibling p := ne_nfoSibling_of_video hvid
    rcases hinv with ⟨hp, hnfo⟩ | ⟨hp, hnfo⟩
    · by_cases hpp : pe.1 = p
      · -- the walk reaches p: the broken branch removes p and its sidecar
        have hexc : existsFS cur fuel p = false := existsFS_false_mono hsub hex
        have hbro : (isLinkE (some (FSEntry.link a t)) &&
            !existsFS cur fuel p) = true := by
          rw [hexc]
          rfl
        obtain ⟨k, rfl⟩ := Nat.exists_eq_add_of_le hfuel
        have hk : (1 : Nat) + k = k + 1 := by omega
        have hboth : lookupFS (sweepStep (1 + k) stems cur pe.1) p = none ∧
            lookupFS (sweepStep (1 + k) stems cur pe.1) (nfoSibling p) =
              none := by
          rw [hpp, sweepStep_eq_some (1 + k) stems cur p _ hp, if_pos hbro]
          rcases hnfo with hfile | hnone
          · have hlook' : lookupFS (removeFS cur p) (nfoSibling p) =
                some FSEntry.file := by
              rw [lookupFS_removeFS, if_neg (fun h => hpn h.symm)]
              exact hfile
            have hexn : existsFS (removeFS cur p) (1 + k) (nfoSibling p) =
                true := by
              rw [hk, existsFS_succ_file hlook']
            rw [if_pos (by rw [hvid, hexn]; rfl)]
            constructor
            · rw [lookupFS_removeFS, if_neg hpn, lookupFS_removeFS, if_pos rfl]
            · rw [lookupFS_removeFS, if_pos rfl]
          · have hlook' : lookupFS (removeFS cur p) (nfoSibling p) = none := by
              rw [lookupFS_removeFS, if_neg (fun h => hpn h.symm)]
              exact hnone
            have hexn : existsFS (removeFS cur p) (1 + k) (nfoSibling p) =
                false := existsFS_of_lookup_none hlook' _
            rw [if_neg (by rw [hexn, Bool.and_false]; exact Bool.false_ne_true)]
            constructor
            · rw [lookupFS_removeFS, if_pos rfl]
            · exact hlook'
        exact ih _ (SubOf.trans hsub1 hsub) (Or.inr hboth) (Or.inr hboth)
      · -- the walk is at another file: p survives, the sidecar can only shrink
        have hp1 : lookupFS (sweepStep fuel stems cur pe.1) p =
            some (.link a t) := by
          rw [sweepStep_lookup_other fuel stems cur pe.1 p
            (fun h => hpp h.symm) (ne_nfoSibling_of_video hvid)]
          exact hp
        have hnfo1 : lookupFS (sweepStep fuel stems cur pe.1) (nfoSibling p) =
            some FSEntry.file ∨
            lookupFS (sweepStep fuel stems cur pe.1) (nfoSibling p) = none := by
          rcases hsub1 (nfoSibling p) with h | h
          · exact Or.inr h
          · rw [h]
            exact hnfo
        rcases hd with ⟨pe', hpe', hpe'q⟩ | ⟨hdp, _⟩
        · rcases List.mem_cons.mp hpe' with rfl | htail
          · exact absurd hpe'q hpp
          · exact ih _ (SubOf.trans hsub1 hsub) (Or.inl ⟨hp1, hnfo1⟩)
              (Or.inl ⟨pe', htail, hpe'q⟩)
        · rw [hdp] at hp
          exact Option.noConfusion hp
    · -- both already gone: nothing can bring them back
      have hp1 : lookupFS (sweepStep fuel stems cur pe.1) p = none :=
        sweepStep_none fuel stems cur pe.1 p hp
      have hn1 : lookupFS (sweepStep fuel stems cur pe.1) (nfoSibling p) =
          none := sweepStep_none fuel stems cur pe.1 (nfoSibling p) hnfo
      exact ih _ (SubOf.trans hsub1 hsub) (Or.inr ⟨hp1, hn1⟩)
        (Or.inr ⟨hp1, hn1⟩)

theorem sweepRoot_preserves_healthy (fuel : Nat) (fs : FS) (root p q : Path)
    (a : Bool) (t : List String)
    (hp : lookupFS fs p = some (.link a t)) (hq : lookupFS fs q = some .file)
    (hvid : hasExtIn (baseName p) video_extensions = true)
    (hres : resolveTarget p.dropLast a t = q)
    (hqroot : underRoot root q = false) (hfuel : 2 ≤ fuel) :
    lookupFS (sweepRoot fuel fs root) p = some (.link a t) ∧
      lookupFS (sweepRoot fuel fs root) q = some .file := by
  unfold sweepRoot
  by_cases hr : root = []
  · rw [if_pos hr]
    exact ⟨hp, hq⟩
  · rw [if_neg hr]
    exact foldl_preserves_healthy fuel _ root p q a t hqroot hvid hres hfuel
      (filesUnder fs root) fs (fun pe hpe => (List.mem_filter.mp hpe).2) hp hq

theorem sweepRoot_removes_broken (fuel : Nat) (fs : FS) (root p : Path)
    (a : Bool) (t : List String)
    (hp : lookupFS fs p = some (.link a t))
    (hex : existsFS fs fuel p = false)
    (hroot : underRoot root p = true) (hrne : root ≠ []) :
    lookupFS (sweepRoot fuel fs root) p = none := by
  unfold sweepRoot
  rw [if_neg hrne]
  exact foldl_removes_broken fuel _ fs p a t hp hex (filesUnder fs root) fs
    (SubOf.refl fs) (Or.inl (mem_filesUnder_of_lookup hp hroot))

theorem sweepRoot_removes_broken_video (fuel : Nat) (fs : FS) (root p : Path)
    (a : Bool) (t : List String)
    (hp : lookupFS fs p = some (.link a t))
    (hex : existsFS fs fuel p = false)
    (hvid : hasExtIn (baseName p) video_extensions = true) (hfuel : 1 ≤ fuel)
    (hnfo : lookupFS fs (nfoSibling p) = some .file ∨
      lookupFS fs (nfoSibling p) = none)
    (hroot : underRoot root p = true) (hrne : root ≠ []) :
    lookupFS (sweepRoot fuel fs root) p = none ∧
      lookupFS (sweepRoot fuel fs root) (nfoSibling p) = none := by
  unfold sweepRoot
  rw [if_neg hrne]
  exact foldl_removes_broken_video fuel _ fs p a t hex hvid hfuel
    (filesUnder fs root) fs (SubOf.refl fs) (Or.inl ⟨hp, hnfo⟩)
    (Or.inl (mem_filesUnder_of_lookup hp hroot))

theorem dropLast_isPre {α : Type} : ∀ (l : List α), l.dropLast <+: l
  | [] => ⟨[], rfl⟩
  | [a] => ⟨[a], rfl⟩
  | a :: b :: l => by
    obtain ⟨t, ht⟩ := dropLast_isPre (b :: l)
    exact ⟨t, by rw [List.dropLast_cons₂, List.cons_append, ht]⟩

theorem isPre_snoc {α : Type} {l a : List α} {x : α} (h : l <+: a ++ [x]) :
    l <+: a ∨ l = a ++ [x] := by
  obtain ⟨t, ht⟩ := h
  cases htn : t with
  | nil =>
    right
    rw [htn, List.append_nil] at ht
    exact ht
  | cons c cs =>
    left
    have htne : t ≠ [] := by rw [htn]; exact List.cons_ne_nil c cs
    have ht2 : (l ++ t.dropLast) ++ [t.getLast htne] = a ++ [x] := by
      rw [List.append_assoc, List.dropLast_append_getLast htne]
      exact ht
    have := List.append_inj' ht2 rfl
    exact ⟨t.dropLast, this.1⟩

theorem not_underRoot_of_not_isPre {root p : Path} (h : ¬root <+: p) :
    underRoot root p = false := by
  rw [← Bool.not_eq_true, underRoot_iff]
  intro hc
  exact h hc.1

theorem not_underRoot_nfoSibling_of_not_isPre {root p : Path}
    (h : ¬root <+: p) : underRoot root (nfoSibling p) = false := by
  rw [← Bool.not_eq_true, underRoot_iff]
  rintro ⟨hpre, hne⟩
  unfold nfoSibling at hpre hne
  rcases isPre_snoc hpre with hd | heq
  · exact h (hd.trans (dropLast_isPre p))
  · exact hne heq.symm

/-! ### Claim C2: the sweep and broken links -/

/-- Claim C2 counterexample: the sweep removes the healthy audio symlink
m/a.mka — a destination link whose target exists — because no video stem
matches it (the orphan branch, not the broken-link branch, fires). -/
theorem claim_C2_counterexample :
    existsFS exC2fs 40 ["m", "a.mka"] = true ∧
    lookupFS exC2fs ["m", "a.mka"] =
      some (.link false ["..", "src", "a.mka"]) ∧
    lookupFS (cleanup_broken_links 40 exC2fs ["m"] ["s"]) ["m", "a.mka"] =
      none := by
  decide

/-- Claim C2 (amended): the sweep never removes a destination VIDEO link
whose target exists (a healthy audio/subtitle link can still be removed by
the orphan branch — see the counterexample); a symlink whose target does
not resolve is removed; if the broken link has a video extension its
same-stem metadata sidecar is removed with it; and a single sweep step
touches no file other than the walked file and its same-stem sidecar. -/
theorem claim_C2_amended_broken_link_sweep :
    (∀ (fuel : Nat) (fs : FS) (moviesPath seriesPath p q : Path) (a : Bool)
        (t : List String),
      lookupFS fs p = some (.link a t) →
      hasExtIn (baseName p) video_extensions = true →
      resolveTarget p.dropLast a t = q →
      lookupFS fs q = some .file →
      underRoot moviesPath q = false → underRoot seriesPath q = false →
      2 ≤ fuel →
      lookupFS (cleanup_broken_links fuel fs moviesPath seriesPath) p =
        some (.link a t)) ∧
    (∀ (fuel : Nat) (fs : FS) (moviesPath seriesPath p : Path) (a : Bool)
        (t : List String),
      lookupFS fs p = some (.link a t) →
      existsFS fs fuel p = false →
      ((underRoot moviesPath p = true ∧ moviesPath ≠ []) ∨
        (underRoot seriesPath p = true ∧ seriesPath ≠ [])) →
      lookupFS (cleanup_broken_links fuel fs moviesPath seriesPath) p =
        none) ∧
    (∀ (fuel : Nat) (fs : FS) (moviesPath seriesPath p : Path) (a : Bool)
        (t : List String),
      lookupFS fs p = some (.link a t) →
      existsFS fs fuel p = false →
      hasExtIn (baseName p) video_extensions = true →
      lookupFS fs (nfoSibling p) = some .file →
      1 ≤ fuel →
      ((underRoot moviesPath p = true ∧ moviesPath ≠ []) ∨
        (¬moviesPath <+: p ∧ underRoot seriesPath p = true ∧
          seriesPath ≠ [])) →
      lookupFS (cleanup_broken_links fuel fs moviesPath seriesPath)
        (nfoSibling p) = none) ∧
    (∀ (fuel : Nat) (stems : List String) (cur : FS) (p x : Path),
      x ≠ p → x ≠ nfoSibling p →
      lookupFS (sweepStep fuel stems cur p) x = lookupFS cur x) := by
  refine ⟨?_, ?_, ?_, sweepStep_lookup_other⟩
  · intro fuel fs moviesPath seriesPath p q a t hp hvid hres hq hqm hqs hfuel
    unfold cleanup_broken_links
    have h1 := sweepRoot_preserves_healthy fuel fs moviesPath p q a t hp hq
      hvid hres hqm hfuel
    exact (sweepRoot_preserves_healthy fuel _ seriesPath p q a t h1.1 h1.2
      hvid hres hqs hfuel).1
  · intro fuel fs moviesPath seriesPath p a t hp hex hd
    unfold cleanup_broken_links
    rcases hd with ⟨hm, hmne⟩ | ⟨hs, hsne⟩
    · have h1 := sweepRoot_removes_broken fuel fs moviesPath p a t hp hex hm
        hmne
      exact sweepRoot_none fuel _ seriesPath p h1
    · rcases sweepRoot_subOf fuel fs moviesPath p with hnone | hagree
      · exact sweepRoot_none fuel _ seriesPath p hnone
      · have hp1 : lookupFS (sweepRoot fuel fs moviesPath) p =
            some (.link a t) := by
          rw [hagree]
          exact hp
        have hex1 : existsFS (sweepRoot fuel fs moviesPath) fuel p = false :=
          existsFS_false_mono (sweepRoot_subOf fuel fs moviesPath) hex
        exact sweepRoot_removes_broken fuel _ seriesPath p a t hp1 hex1 hs hsne
  · intro fuel fs moviesPath seriesPath p a t hp hex hvid hnfo hfuel hd
    unfold cleanup_broken_links
    rcases hd with ⟨hm, hmne⟩ | ⟨hnm, hs, hsne⟩
    · have h1 := sweepRoot_removes_broken_video fuel fs moviesPath p a t hp
        hex hvid hfuel (Or.inl hnfo) hm hmne
      exact sweepRoot_none fuel _ seriesPath _ h1.2
    · have hup : underRoot moviesPath p = false :=
        not_underRoot_of_not_isPre hnm
      have hun : underRoot moviesPath (nfoSibling p) = false :=
        not_underRoot_nfoSibling_of_not_isPre hnm
      have hp1 : lookupFS (sweepRoot fuel fs moviesPath) p =
          some (.link a t) := by
        rw [sweepRoot_not_under fuel fs moviesPath p hup]
        exact hp
      have hn1 : lookupFS (sweepRoot fuel fs moviesPath) (nfoSibling p) =
          some FSEntry.file := by
        rw [sweepRoot_not_under fuel fs moviesPath _ hun]
        exact hnfo
      have hex1 : existsFS (sweepRoot fuel fs moviesPath) fuel p = false :=
        existsFS_false_mono (sweepRoot_subOf fuel fs moviesPath) hex
      exact (sweepRoot_removes_broken_video fuel _ seriesPath p a t hp1 hex1
        hvid hfuel (Or.inl hn1) hs hsne).2

/-- Witness for the amended C2 on a concrete tree. -/
theorem claim_C2_witness :
    lookupFS (cleanup_broken_links 40 exC2wfs ["m"] ["s"])
        ["m", "sh", "good.mkv"] =
      some (.link false ["..", "..", "ext", "good.mkv"]) ∧
    lookupFS (cleanup_broken_links 40 exC2wfs ["m"] ["s"])
        ["m", "sh", "bad.mkv"] = none ∧
    lookupFS (cleanup_broken_links 40 exC2wfs ["m"] ["s"])
        (nfoSibling ["m", "sh", "bad.mkv"]) = none ∧
    lookupFS (sweepStep 40 [] exC2wfs ["m", "sh", "bad.mkv"])
        ["ext", "good.mkv"] = lookupFS exC2wfs ["ext", "good.mkv"] :=
  ⟨claim_C2_amended_broken_link_sweep.1 40 exC2wfs ["m"] ["s"]
     ["m", "sh", "good.mkv"] ["ext", "good.mkv"] false
     ["..", "..", "ext", "good.mkv"] (by decide) (by decide) (by decide)
     (by decide) (by decide) (by decide) (by decide),
   claim_C2_amended_broken_link_sweep.2.1 40 exC2wfs ["m"] ["s"]
     ["m", "sh", "bad.mkv"] false ["..", "..", "ext", "bad.mkv"] (by decide)
     (by decide) (Or.inl ⟨by decide, by decide⟩),
   claim_C2_amended_broken_link_sweep.2.2.1 40 exC2wfs ["m"] ["s"]
     ["m", "sh", "bad.mkv"] false ["..", "..", "ext", "bad.mkv"] (by decide)
     (by decide) (by decide) (by decide) (by decide)
     (Or.inl ⟨by decide, by decide⟩),
   claim_C2_amended_broken_link_sweep.2.2.2 40 [] exC2wfs
     ["m", "sh", "bad.mkv"] ["ext", "good.mkv"] (by decide) (by decide)⟩

/-! ### Claim C3: sidecar orphan detection -/

/-- An audio/subtitle file whose stem matches no collected video stem is
removed by the walk. -/
theorem foldl_removes_orphan (fuel : Nat) (stems : List String) (fs : FS)
    (p : Path)
    (hext : hasExtIn (baseName p) extra_extensions = true)
    (hnom : stemMatches stems (baseName p) = false) :
    ∀ (l : List (Path × FSEntry)) (cur : FS), SubOf cur fs →
      ((∃ pe ∈ l, pe.1 = p) ∨ lookupFS cur p = none) →
      lookupFS (l.foldl (fun cur pe => sweepStep fuel stems cur pe.1) cur) p =
        none := by
  intro l
  induction l with
  | nil =>
    intro cur _ hd
    rcases hd with ⟨pe, hpe, _⟩ | hnone
    · exact absurd hpe (List.not_mem_nil pe)
    · exact hnone
  | cons pe l ih =>
    intro cur hsub hd
    have hsub1 : SubOf (sweepStep fuel stems cur pe.1) cur :=
      sweepStep_subOf fuel stems cur pe.1
    cases hcur : lookupFS cur p with
    | none =>
      exact ih _ (SubOf.trans hsub1 hsub)
        (Or.inr (sweepStep_none fuel stems cur pe.1 p hcur))
    | some e' =>
      by_cases hpp : pe.1 = p
      · have hstep : lookupFS (sweepStep fuel stems cur pe.1) p = none := by
          rw [hpp, sweepStep_eq_some fuel stems cur p e' hcur]
          by_cases hbro : (isLinkE (some e') && !existsFS cur fuel p) = true
          · rw [if_pos hbro]
            by_cases hnfo : (hasExtIn (baseName p) video_extensions &&
                existsFS (removeFS cur p) fuel (nfoSibling p)) = true
            · rw [if_pos hnfo, lookupFS_removeFS]
              by_cases h2 : p = nfoSibling p
              · rw [if_pos h2]
              · rw [if_neg h2, lookupFS_removeFS, if_pos rfl]
            · rw [if_neg hnfo, lookupFS_removeFS, if_pos rfl]
          · rw [if_neg hbro, if_pos hext,
              if_neg (by rw [hnom]; exact Bool.false_ne_true),
              lookupFS_removeFS, if_pos rfl]
        exact ih _ (SubOf.trans hsub1 hsub) (Or.inr hstep)
      · cases hstep : lookupFS (sweepStep fuel stems cur pe.1) p with
        | none => exact ih _ (SubOf.trans hsub1 hsub) (Or.inr hstep)
        | some e2 =>
          rcases hd with ⟨pe', hpe', hpe'q⟩ | hnone
          · rcases List.mem_cons.mp hpe' with rfl | htail
            · exact absurd hpe'q hpp
            · exact ih _ (SubOf.trans hsub1 hsub) (Or.inl ⟨pe', htail, hpe'q⟩)
          · rw [hnone] at hcur
            exact Option.noConfusion hcur

/-- A plain audio/subtitle file whose stem matches a collected video stem
survives the walk. -/
theorem foldl_keeps_matching_plain (fuel : Nat) (stems : List String)
    (p : Path) (hext : hasExtIn (baseName p) extra_extensions = true)
    (hmatch : stemMatches stems (baseName p) = true) :
    ∀ (l : List (Path × FSEntry)) (cur : FS),
      lookupFS cur p = some .file →
      lookupFS (l.foldl (fun cur pe => sweepStep fuel stems cur pe.1) cur) p =
        some .file := by
  intro l
  induction l with
  | nil => intro cur hp; exact hp
  | cons pe l ih =>
    intro cur hp
    apply ih
    show lookupFS (sweepStep fuel stems cur pe.1) p = some FSEntry.file
    by_cases hpp : pe.1 = p
    · rw [hpp, sweepStep_eq_some fuel stems cur p _ hp,
        if_neg (by simp [isLinkE]), if_pos hext, if_pos hmatch]
      exact hp
    · rw [sweepStep_lookup_other fuel stems cur pe.1 p (fun h => hpp h.symm)
        (ne_nfoSibling_of_extra hext)]
      exact hp

/-- A healthy audio/subtitle link (target outside the root) whose stem
matches a collected video stem survives the walk, with its target. -/
theorem foldl_keeps_matching_link (fuel : Nat) (stems : List String)
    (root p q : Path) (a : Bool) (t : List String)
    (hext : hasExtIn (baseName p) extra_extensions = true)
    (hmatch : stemMatches stems (baseName p) = true)
    (hres : resolveTarget p.dropLast a t = q)
    (hqroot : underRoot root q = false) (hfuel : 2 ≤ fuel) :
    ∀ (l : List (Path × FSEntry)) (cur : FS),
      (∀ pe ∈ l, underRoot root pe.1 = true) →
      lookupFS cur p = some (.link a t) → lookupFS cur q = some .file →
      lookupFS (l.foldl (fun cur pe => sweepStep fuel stems cur pe.1) cur) p =
          some (.link a t) ∧
        lookupFS (l.foldl (fun cur pe => sweepStep fuel stems cur pe.1) cur) q =
          some .file := by
  intro l
  induction l with
  | nil => intro cur _ hp hq; exact ⟨hp, hq⟩
  | cons pe l ih =>
    intro cur hall hp hq
    have hpe : underRoot root pe.1 = true := hall pe (List.mem_cons_self pe l)
    have hq1 : lookupFS (sweepStep fuel stems cur pe.1) q = some .file := by
      have hqne : q ≠ pe.1 := by
        intro heq
        rw [heq, hpe] at hqroot
        exact Bool.noConfusion hqroot
      have hqnfo : q ≠ nfoSibling pe.1 := by
        intro heq
        rw [heq, underRoot_nfoSibling hpe] at hqroot
        exact Bool.noConfusion hqroot
      rw [sweepStep_lookup_other fuel stems cur pe.1 q hqne hqnfo]
      exact hq
    have hp1 : lookupFS (sweepStep fuel stems cur pe.1) p =
        some (.link a t) := by
      by_cases hpp : pe.1 = p
      · have hex : existsFS cur fuel p = true :=
          existsFS_healthy_link hp hq hres hfuel
        rw [hpp, sweepStep_eq_some fuel stems cur p _ hp,
          if_neg (by rw [hex]; exact fun h => Bool.noConfusion h),
          if_pos hext, if_pos hmatch]
        exact hp
      · rw [sweepStep_lookup_other fuel stems cur pe.1 p
          (fun h => hpp h.symm) (ne_nfoSibling_of_extra hext)]
        exact hp
    exact ih _ (fun pe' hpe' => hall pe' (List.mem_cons_of_mem pe hpe'))
      hp1 hq1

theorem sweepRoot_removes_orphan (fuel : Nat) (fs : FS) (root p : Path)
    (e : FSEntry) (hp : lookupFS fs p = some e)
    (hext : hasExtIn (baseName p) extra_extensions = true)
    (hnom : stemMatches (collectVideoStems fuel fs root) (baseName p) = false)
    (hroot : underRoot root p = true) (hrne : root ≠ []) :
    lookupFS (sweepRoot fuel fs root) p = none := by
  unfold sweepRoot
  rw [if_neg hrne]
  exact foldl_removes_orphan fuel _ fs p hext hnom (filesUnder fs root) fs
    (SubOf.refl fs) (Or.inl (mem_filesUnder_of_lookup hp hroot))

theorem sweepRoot_keeps_matching_plain (fuel : Nat) (fs : FS) (root p : Path)
    (hp : lookupFS fs p = some .file)
    (hext : hasExtIn (baseName p) extra_extensions = true)
    (hmatch : stemMatches (collectVideoStems fuel fs root) (baseName p) =
      true) :
    lookupFS (sweepRoot fuel fs root) p = some .file := by
  unfold sweepRoot
  by_cases hr : root = []
  · rw [if_pos hr]
    exact hp
  · rw [if_neg hr]
    exact foldl_keeps_matching_plain fuel _ p hext hmatch (filesUnder fs root)
      fs hp

theorem sweepRoot_keeps_matching_link (fuel : Nat) (fs : FS)
    (root p q : Path) (a : Bool) (t : List String)
    (hp : lookupFS fs p = some (.link a t))
    (hext : hasExtIn (baseName p) extra_extensions = true)
    (hmatch : stemMatches (collectVideoStems fuel fs root) (baseName p) =
      true)
    (hres : resolveTarget p.dropLast a t = q)
    (hq : lookupFS fs q = some .file)
    (hqroot : underRoot root q = false) (hfuel : 2 ≤ fuel) :
    lookupFS (sweepRoot fuel fs root) p = some (.link a t) := by
  unfold sweepRoot
  by_cases hr : root = []
  · rw [if_pos hr]
    exact hp
  · rw [if_neg hr]
    exact (foldl_keeps_matching_link fuel _ root p q a t hext hmatch hres
      hqroot hfuel (filesUnder fs root) fs
      (fun pe hpe => (List.mem_filter.mp hpe).2) hp hq).1

/-- Claim C3 counterexample: the audio file m/showB/v.ru.mka is kept by the
sweep although no currently-resolvable video in its own directory matches
its stem (the matching video lives in m/showA) — the code matches stems
across the whole destination root, not per directory. -/
theorem claim_C3_counterexample :
    lookupFS (cleanup_broken_links 40 exC3fs ["m"] ["s"])
        ["m", "showB", "v.ru.mka"] = some .file ∧
    specSameDirMatch 40 exC3fs ["m", "showB", "v.ru.mka"] = false := by
  decide

/-- Claim C3 (amended): for an audio or subtitle file present in a
destination root when that root's sweep runs: a broken symlink among them
is always removed; a non-broken one (plain file, or link whose target
resolves) is kept if and only if its stem equals or starts with the stem of
some currently-resolvable video anywhere under the SAME DESTINATION ROOT
(not merely the same directory); otherwise it is removed as orphaned. -/
theorem claim_C3_amended_orphan_detection :
    (∀ (fuel : Nat) (fs : FS) (root p : Path) (e : FSEntry),
      lookupFS fs p = some e →
      hasExtIn (baseName p) extra_extensions = true →
      stemMatches (collectVideoStems fuel fs root) (baseName p) = false →
      underRoot root p = true → root ≠ [] →
      lookupFS (sweepRoot fuel fs root) p = none) ∧
    (∀ (fuel : Nat) (fs : FS) (root p : Path),
      lookupFS fs p = some .file →
      hasExtIn (baseName p) extra_extensions = true →
      stemMatches (collectVideoStems fuel fs root) (baseName p) = true →
      lookupFS (sweepRoot fuel fs root) p = some .file) ∧
    (∀ (fuel : Nat) (fs : FS) (root p q : Path) (a : Bool) (t : List String),
      lookupFS fs p = some (.link a t) →
      hasExtIn (baseName p) extra_extensions = true →
      stemMatches (collectVideoStems fuel fs root) (baseName p) = true →
      resolveTarget p.dropLast a t = q → lookupFS fs q = some .file →
      underRoot root q = false → 2 ≤ fuel →
      lookupFS (sweepRoot fuel fs root) p = some (.link a t)) ∧
    (∀ (fuel : Nat) (fs : FS) (root p : Path) (a : Bool) (t : List String),
      lookupFS fs p = some (.link a t) →
      existsFS fs fuel p = false →
      underRoot root p = true → root ≠ [] →
      lookupFS (sweepRoot fuel fs root) p = none) := by
  refine ⟨?_, ?_, ?_, ?_⟩
  · intro fuel fs root p e hp hext hnom hroot hrne
    exact sweepRoot_removes_orphan fuel fs root p e hp hext hnom hroot hrne
  · intro fuel fs root p hp hext hmatch
    exact sweepRoot_keeps_matching_plain fuel fs root p hp hext hmatch
  · intro fuel fs root p q a t hp hext hmatch hres hq hqroot hfuel
    exact sweepRoot_keeps_matching_link fuel fs root p q a t hp hext hmatch
      hres hq hqroot hfuel
  · intro fuel fs root p a t hp hex hroot hrne
    exact sweepRoot_removes_broken fuel fs root p a t hp hex hroot hrne

/-- Witness for the amended C3 on a concrete tree. -/
theorem claim_C3_witness :
    lookupFS (sweepRoot 40 exC3wfs ["m"]) ["m", "sh", "orphan.mka"] = none ∧
    lookupFS (sweepRoot 40 exC3wfs ["m"]) ["m", "sh", "v.ru.mka"] =
      some .file ∧
    lookupFS (sweepRoot 40 exC3wfs ["m"]) ["m", "sh", "v.en.ass"] =
      some (.link false ["..", "..", "ext", "v.en.ass"]) ∧
    lookupFS (sweepRoot 40 exC3wfs ["m"]) ["m", "sh", "v.ass"] = none :=
  ⟨claim_C3_amended_orphan_detection.1 40 exC3wfs ["m"]
     ["m", "sh", "orphan.mka"] FSEntry.file (by decide) (by decide)
     (by decide) (by decide) (by decide),
   claim_C3_amended_orphan_detection.2.1 40 exC3wfs ["m"]
     ["m", "sh", "v.ru.mka"] (by decide) (by decide) (by decide),
   claim_C3_amended_orphan_detection.2.2.1 40 exC3wfs ["m"]
     ["m", "sh", "v.en.ass"] ["ext", "v.en.ass"] false
     ["..", "..", "ext", "v.en.ass"] (by decide) (by decide) (by decide)
     (by decide) (by decide) (by decide) (by decide),
   claim_C3_amended_orphan_detection.2.2.2 40 exC3wfs ["m"]
     ["m", "sh", "v.ass"] false ["..", "..", "gone", "v.ass"] (by decide)
     (by decide) (by decide) (by decide)⟩

/-! ### Claim C6: the processed-sources index -/

theorem mem_gpfRoot {fuel : Nat} {fs : FS} {root p : Path} :
    p ∈ gpfRoot fuel fs root ↔
      root ≠ [] ∧ ∃ (q : Path) (a : Bool) (t : List String),
        (q, FSEntry.link a t) ∈ fs ∧ underRoot root q = true ∧
        hasExtIn (baseName q) video_extensions = true ∧
        existsFS fs fuel (nfoSibling q) = true ∧
        existsFS fs fuel (resolveTarget q.dropLast a t) = true ∧
        p = resolveTarget q.dropLast a t := by
  unfold gpfRoot
  by_cases hr : root = []
  · rw [if_pos hr]
    simp [hr]
  · rw [if_neg hr]
    rw [List.mem_filterMap]
    constructor
    · rintro ⟨⟨q, e⟩, hmem, hf⟩
      obtain ⟨hqfs, hunder⟩ := List.mem_filter.mp hmem
      dsimp only at hf hunder
      refine ⟨hr, ?_⟩
      cases e with
      | file =>
        exfalso
        dsimp only at hf
        split_ifs at hf
      | link a t =>
        dsimp only at hf
        split_ifs at hf with h1 h2 h3
        injection hf with hpf
        exact ⟨q, a, t, hqfs, hunder, h1, h2, h3, hpf.symm⟩
    · rintro ⟨_, q, a, t, hqfs, hunder, h1, h2, h3, rfl⟩
      refine ⟨(q, FSEntry.link a t), List.mem_filter.mpr ⟨hqfs, hunder⟩, ?_⟩
      have hf : (if hasExtIn (baseName q) video_extensions = true then
            if existsFS fs fuel (nfoSibling q) = true then
              if existsFS fs fuel (resolveTarget q.dropLast a t) = true then
                some (resolveTarget q.dropLast a t)
              else none
            else none
          else none) = some (resolveTarget q.dropLast a t) := by
        rw [if_pos h1, if_pos h2, if_pos h3]
      exact hf

/-- Claim C6: the processed-sources index contains exactly the resolved
absolute source paths of entries in a destination root that are
video-extension symlinks whose resolved targets exist and that have a
same-stem metadata sidecar beside them; no other paths. -/
theorem claim_C6_processed_sources_characterization :
    ∀ (fuel : Nat) (fs : FS) (moviesPath seriesPath p : Path),
      p ∈ get_processed_files fuel fs moviesPath seriesPath ↔
        ((moviesPath ≠ [] ∧ ∃ (q : Path) (a : Bool) (t : List String),
          (q, FSEntry.link a t) ∈ fs ∧ underRoot moviesPath q = true ∧
          hasExtIn (baseName q) video_extensions = true ∧
          existsFS fs fuel (nfoSibling q) = true ∧
          existsFS fs fuel (resolveTarget q.dropLast a t) = true ∧
          p = resolveTarget q.dropLast a t) ∨
        (seriesPath ≠ [] ∧ ∃ (q : Path) (a : Bool) (t : List String),
          (q, FSEntry.link a t) ∈ fs ∧ underRoot seriesPath q = true ∧
          hasExtIn (baseName q) video_extensions = true ∧
          existsFS fs fuel (nfoSibling q) = true ∧
          existsFS fs fuel (resolveTarget q.dropLast a t) = true ∧
          p = resolveTarget q.dropLast a t)) := by
  intro fuel fs moviesPath seriesPath p
  unfold get_processed_files
  rw [List.mem_append, mem_gpfRoot, mem_gpfRoot]

end JAM
